import Mathlib

/-!
# gohls: playlist synchroniser (`getPlaylist`) and segment fetcher (`downloadSegment`)

A shallow embedding of `src/gohls-raw.go`.

* Go strings are Lean `String`s; `time.Duration` values are `Int` nanosecond counts with
  explicit two's-complement wrap-around (`wrapInt64`) where the source adds durations.
* The floating-point expression `int64(v.Duration * 1000000000)` is not modelled: a segment
  carries the resulting `int64` directly (`MediaSegment.DurationNs`).
* The network, the playlist decoder and the clock are an explicit environment: the list of
  outcomes of successive playlist requests (`Fetch`), the list of outcomes of successive
  segment requests (`SegFetch`), and the readings of `time.Now().Sub(startTime)` (`now`).
* The channel `dlc` is observed through the ordered trace of `send` / `close` events of the
  producer; the consumer is run on the list of descriptors it receives.
* Libraries that are not part of the repository (`net/url`, `groupcache/lru`) are modelled
  after their Go sources: `net/url` is a parameter (`NetURL`) of the synchroniser with the
  instance `goURL`; the LRU cache is `Cache`.
-/

namespace Gohls

/-! ## Data model -/

/-- Two's-complement wrap-around of `int64` arithmetic (`time.Duration` is an `int64`). -/
def wrapInt64 (x : Int) : Int := (x + 2 ^ 63) % 2 ^ 64 - 2 ^ 63

/-- Source lines 54-57: `type Download struct { URI string; totalDuration time.Duration }`. -/
structure Download where
  URI : String
  totalDuration : Int
  deriving DecidableEq, Repr

/-- One entry of `mpl.Segments`: the fields of `m3u8.MediaSegment` read by `getPlaylist`.
`DurationNs` is the value of `int64(v.Duration * 1000000000)` (source line 139), as float64
arithmetic and the truncating conversion produce it from the duration in seconds; it can
differ from the nominal duration in nanoseconds (1.001 s gives 1000999999). -/
structure MediaSegment where
  URI : String
  DurationNs : Int
  deriving DecidableEq, Repr

/-- The fields of `m3u8.MediaPlaylist` read by `getPlaylist`. `Segments` may hold `nil`
entries (`none`), which line 115 skips. `TargetDurationNs` is the value of
`int64(mpl.TargetDuration * 1000000000)` (source line 153). -/
structure MediaPlaylist where
  Segments : List (Option MediaSegment)
  Closed : Bool
  TargetDurationNs : Int
  deriving DecidableEq, Repr

/-! ## `groupcache/lru` -/

/-- The `lru.Cache` of `github.com/golang/groupcache/lru`, restricted to its keys (the
source stores `nil` values): `ll` is the recency list, most recently used key first. -/
structure Cache where
  MaxEntries : Nat
  ll : List String
  deriving DecidableEq, Repr

/-- Model of `lru.New(maxEntries)`. -/
def Cache.New (maxEntries : Nat) : Cache := ⟨maxEntries, []⟩

/-- Model of `(*Cache).Get`: a hit moves the entry to the front of the recency list. -/
def Cache.Get (c : Cache) (key : String) : Cache × Bool :=
  if key ∈ c.ll then (⟨c.MaxEntries, key :: c.ll.erase key⟩, true) else (c, false)

/-- Model of `(*Cache).Add`: an existing key is moved to the front; a new key is pushed to
the front and, when `MaxEntries != 0` and the list is longer than `MaxEntries`, the oldest
entry (the last of the list) is removed. -/
def Cache.Add (c : Cache) (key : String) : Cache :=
  if key ∈ c.ll then ⟨c.MaxEntries, key :: c.ll.erase key⟩
  else if c.MaxEntries ≠ 0 ∧ (key :: c.ll).length > c.MaxEntries then
    ⟨c.MaxEntries, (key :: c.ll).dropLast⟩
  else ⟨c.MaxEntries, key :: c.ll⟩

/-! ## `net/url` as used by `getPlaylist` -/

/-- The functions of Go's `net/url` called by `getPlaylist`; an error result is `none`. -/
structure NetURL where
  /-- The type `*url.URL`. -/
  URL : Type
  /-- The function `url.Parse`. -/
  Parse : String → Option URL
  /-- The method `(*URL).Parse`: parse a reference and resolve it against the receiver. -/
  RefParse : URL → String → Option URL
  /-- The method `(*URL).String`. -/
  Str : URL → String
  /-- The function `url.QueryUnescape`. -/
  QueryUnescape : String → Option String

/-- Model of `strings.HasPrefix`. -/
def HasPrefix (s pre : String) : Bool := pre.toList.isPrefixOf s.toList

/-! ## Go's `net/url`

The instance `goURL` follows the Go source of `net/url` (`Parse`, `(*URL).Parse`,
`(*URL).ResolveReference`, `(*URL).String`, `QueryUnescape`). A Go string is a byte
sequence; it is represented with one `Char` per byte. -/

namespace url

/-- Go strings inside the URL model. -/
abbrev GoString := List Char

/-- The `encoding` modes of `net/url`. -/
inductive encoding where
  | encodePath
  | encodePathSegment
  | encodeHost
  | encodeZone
  | encodeUserPassword
  | encodeQueryComponent
  | encodeFragment
  deriving DecidableEq, Repr

/-- Go `ishex`. -/
def ishex (c : Char) : Bool :=
  let n := c.toNat
  (48 ≤ n && n ≤ 57) || (97 ≤ n && n ≤ 102) || (65 ≤ n && n ≤ 70)

/-- Go `unhex`. -/
def unhex (c : Char) : Nat :=
  let n := c.toNat
  if 48 ≤ n ∧ n ≤ 57 then n - 48
  else if 97 ≤ n ∧ n ≤ 102 then n - 97 + 10
  else if 65 ≤ n ∧ n ≤ 70 then n - 65 + 10
  else 0

/-- The digit `"0123456789ABCDEF"[k]`. -/
def upperhex (k : Nat) : Char :=
  if k < 10 then Char.ofNat (48 + k) else Char.ofNat (55 + k)

/-- Characters that `shouldEscape` leaves alone in a host: the sub-delimiters and
`: [ ] < > "`. Code 39 is the apostrophe, code 34 the double quote. -/
def hostChars : List Char :=
  ['!', '$', '&', Char.ofNat 39, '(', ')', '*', '+', ',', ';', '=', ':', '[', ']', '<', '>',
    Char.ofNat 34]

/-- Go `shouldEscape`. -/
def shouldEscape (c : Char) (mode : encoding) : Bool :=
  let n := c.toNat
  if (97 ≤ n ∧ n ≤ 122) ∨ (65 ≤ n ∧ n ≤ 90) ∨ (48 ≤ n ∧ n ≤ 57) then false
  else if (mode = .encodeHost ∨ mode = .encodeZone) ∧ c ∈ hostChars then false
  else if c ∈ ['-', '_', '.', '~'] then false
  else if c ∈ ['$', '&', '+', ',', '/', ':', ';', '=', '?', '@'] ∧
      mode = .encodePath then decide (c = '?')
  else if c ∈ ['$', '&', '+', ',', '/', ':', ';', '=', '?', '@'] ∧
      mode = .encodePathSegment then decide (c = '/' ∨ c = ';' ∨ c = ',' ∨ c = '?')
  else if c ∈ ['$', '&', '+', ',', '/', ':', ';', '=', '?', '@'] ∧
      mode = .encodeUserPassword then decide (c = '@' ∨ c = '/' ∨ c = '?' ∨ c = ':')
  else if c ∈ ['$', '&', '+', ',', '/', ':', ';', '=', '?', '@'] ∧
      mode = .encodeQueryComponent then true
  else if c ∈ ['$', '&', '+', ',', '/', ':', ';', '=', '?', '@'] ∧
      mode = .encodeFragment then false
  else if mode = .encodeFragment ∧ c ∈ ['!', '(', ')', '*'] then false
  else true

/-- First loop of Go `unescape`: every `%` starts a well-formed escape that the mode
accepts, and in a host every other ASCII byte is one that needs no escaping. -/
def unescapeValid (mode : encoding) : GoString → Bool
  | [] => true
  | c :: rest =>
    if c = '%' then
      match rest with
      | a :: b :: rest2 =>
        if !(ishex a && ishex b) then false
        else if mode = .encodeHost ∧ unhex a < 8 ∧ [c, a, b] ≠ ['%', '2', '5'] then false
        else if mode = .encodeZone ∧ [c, a, b] ≠ ['%', '2', '5'] ∧
            16 * unhex a + unhex b ≠ 32 ∧
            shouldEscape (Char.ofNat (16 * unhex a + unhex b)) .encodeHost then false
        else unescapeValid mode rest2
      | _ => false
    else if (mode = .encodeHost ∨ mode = .encodeZone) ∧ c ≠ '+' ∧ c.toNat < 128 ∧
        shouldEscape c .encodeHost then false
    else unescapeValid mode rest

/-- Second loop of Go `unescape`: decode the escapes (and `+` in a query component). -/
def unescapeBuild (mode : encoding) : GoString → GoString
  | [] => []
  | c :: rest =>
    if c = '%' then
      match rest with
      | a :: b :: rest2 => Char.ofNat (16 * unhex a + unhex b) :: unescapeBuild mode rest2
      | _ => []
    else if c = '+' ∧ mode = .encodeQueryComponent then ' ' :: unescapeBuild mode rest
    else c :: unescapeBuild mode rest

/-- Go `unescape`. -/
def unescape (s : GoString) (mode : encoding) : Option GoString :=
  if unescapeValid mode s then some (unescapeBuild mode s) else none

/-- Go `QueryUnescape`. -/
def QueryUnescape (s : GoString) : Option GoString := unescape s .encodeQueryComponent

/-- Go `escape`. -/
def escape (s : GoString) (mode : encoding) : GoString :=
  s.flatMap fun c =>
    if shouldEscape c mode then
      if c = ' ' ∧ mode = .encodeQueryComponent then ['+']
      else ['%', upperhex (c.toNat / 16 % 16), upperhex (c.toNat % 16)]
    else [c]

/-- Go `validEncoded`. -/
def validEncoded (s : GoString) (mode : encoding) : Bool :=
  s.all fun c =>
    c ∈ ['!', '$', '&', Char.ofNat 39, '(', ')', '*', '+', ',', ';', '=', ':', '@', '[', ']',
      '%'] || !shouldEscape c mode

/-- Go `strings.Cut` for a one-byte separator: the text before and after the first
occurrence, and whether there is one. -/
def cut (sep : Char) : GoString → GoString × GoString × Bool
  | [] => ([], [], false)
  | c :: rest =>
    if c = sep then ([], rest, true)
    else let r := cut sep rest; (c :: r.1, r.2.1, r.2.2)

/-- Split at the last occurrence of a byte (`strings.LastIndex` and the two slices around
it); `none` when the byte does not occur. -/
def cutLast (sep : Char) (s : GoString) : Option (GoString × GoString) :=
  let r := cut sep s.reverse
  if r.2.2 then some (r.2.1.reverse, r.1.reverse) else none

/-- Go `strings.Index` for the separator `"%25"`, with the two slices around the match
(the second starts at the match). -/
def cutZone : GoString → Option (GoString × GoString)
  | [] => none
  | c :: rest =>
    if ['%', '2', '5'].isPrefixOf (c :: rest) then some ([], c :: rest)
    else (cutZone rest).map fun r => (c :: r.1, r.2)

/-- Go `stringContainsCTLByte`. -/
def stringContainsCTLByte (s : GoString) : Bool :=
  s.any fun c => c.toNat < 32 || c.toNat = 127

/-- Go `strings.ToLower` on ASCII text. -/
def toLower (s : GoString) : GoString :=
  s.map fun c => if 65 ≤ c.toNat ∧ c.toNat ≤ 90 then Char.ofNat (c.toNat + 32) else c

/-- Go `getScheme`: `none` is the error `missing protocol scheme`; `acc` holds the bytes
already scanned, in reverse. -/
def getSchemeAux (rawURL : GoString) (acc : GoString) :
    GoString → Option (GoString × GoString)
  | [] => some ([], rawURL)
  | c :: rest =>
    let n := c.toNat
    if (97 ≤ n ∧ n ≤ 122) ∨ (65 ≤ n ∧ n ≤ 90) then getSchemeAux rawURL (c :: acc) rest
    else if (48 ≤ n ∧ n ≤ 57) ∨ c = '+' ∨ c = '-' ∨ c = '.' then
      if acc = [] then some ([], rawURL) else getSchemeAux rawURL (c :: acc) rest
    else if c = ':' then
      if acc = [] then none else some (acc.reverse, rest)
    else some ([], rawURL)

/-- Go `getScheme`. -/
def getScheme (rawURL : GoString) : Option (GoString × GoString) :=
  getSchemeAux rawURL [] rawURL

/-- Go `validOptionalPort`. -/
def validOptionalPort : GoString → Bool
  | [] => true
  | c :: rest => c = ':' && rest.all fun b => 48 ≤ b.toNat && b.toNat ≤ 57

/-- Go `validUserinfo`. -/
def validUserinfo (s : GoString) : Bool :=
  s.all fun r =>
    (65 ≤ r.toNat && r.toNat ≤ 90) || (97 ≤ r.toNat && r.toNat ≤ 122) ||
    (48 ≤ r.toNat && r.toNat ≤ 57) ||
    r ∈ ['-', '.', '_', ':', '~', '!', '$', '&', Char.ofNat 39, '(', ')', '*', '+', ',', ';',
      '=', '%', '@']

/-- Go `parseHost`. -/
def parseHost (host : GoString) : Option GoString :=
  if ['['].isPrefixOf host then
    match cutLast ']' host with
    | none => none
    | some (inner, colonPort) =>
      if !validOptionalPort colonPort then none
      else
        match cutZone inner with
        | some (h1, zone) =>
          match unescape h1 .encodeHost, unescape zone .encodeZone,
            unescape (']' :: colonPort) .encodeHost with
          | some host1, some host2, some host3 => some (host1 ++ host2 ++ host3)
          | _, _, _ => none
        | none => unescape host .encodeHost
  else
    match cutLast ':' host with
    | some (_, port) =>
      if !validOptionalPort (':' :: port) then none else unescape host .encodeHost
    | none => unescape host .encodeHost

/-- Go `Userinfo`. -/
structure Userinfo where
  username : GoString
  password : GoString
  passwordSet : Bool
  deriving DecidableEq, Repr

/-- Go `parseAuthority`. -/
def parseAuthority (authority : GoString) : Option (Option Userinfo × GoString) :=
  match cutLast '@' authority with
  | none => (parseHost authority).map fun host => (none, host)
  | some (userinfo, hostPart) =>
    match parseHost hostPart with
    | none => none
    | some host =>
      if !validUserinfo userinfo then none
      else if ':' ∉ userinfo then
        (unescape userinfo .encodeUserPassword).map fun u => (some ⟨u, [], false⟩, host)
      else
        let r := cut ':' userinfo
        match unescape r.1 .encodeUserPassword, unescape r.2.1 .encodeUserPassword with
        | some username, some password => some (some ⟨username, password, true⟩, host)
        | _, _ => none

/-- Go `url.URL`. -/
structure URL where
  Scheme : GoString := []
  Opaque : GoString := []
  User : Option Userinfo := none
  Host : GoString := []
  Path : GoString := []
  RawPath : GoString := []
  OmitHost : Bool := false
  ForceQuery : Bool := false
  RawQuery : GoString := []
  Fragment : GoString := []
  RawFragment : GoString := []
  deriving DecidableEq, Repr

/-- Go `(*URL).setPath`; `none` is the error result. -/
def URL.setPath (u : URL) (p : GoString) : Option URL :=
  match unescape p .encodePath with
  | none => none
  | some path =>
    some { u with Path := path, RawPath := if p = escape path .encodePath then [] else p }

/-- Go `(*URL).setFragment`; `none` is the error result. -/
def URL.setFragment (u : URL) (f : GoString) : Option URL :=
  match unescape f .encodeFragment with
  | none => none
  | some frag =>
    some { u with Fragment := frag,
                  RawFragment := if f = escape frag .encodeFragment then [] else f }

/-- Go `(*URL).EscapedPath`. -/
def URL.EscapedPath (u : URL) : GoString :=
  if u.RawPath ≠ [] ∧ validEncoded u.RawPath .encodePath ∧
      unescape u.RawPath .encodePath = some u.Path then u.RawPath
  else if u.Path = ['*'] then ['*']
  else escape u.Path .encodePath

/-- Go `(*URL).EscapedFragment`. -/
def URL.EscapedFragment (u : URL) : GoString :=
  if u.RawFragment ≠ [] ∧ validEncoded u.RawFragment .encodeFragment ∧
      unescape u.RawFragment .encodeFragment = some u.Fragment then u.RawFragment
  else escape u.Fragment .encodeFragment

/-- Go `parse(rawURL, viaRequest)` (the part of `Parse` before the fragment is set). -/
def parse (rawURL : GoString) (viaRequest : Bool) : Option URL :=
  if stringContainsCTLByte rawURL then none
  else if rawURL = [] ∧ viaRequest then none
  else if rawURL = ['*'] then some { Path := ['*'] }
  else
    match getScheme rawURL with
    | none => none
    | some (scheme0, rest0) =>
      let scheme := toLower scheme0
      let forceQuery : Bool := rest0.getLast? = some '?' ∧ rest0.count '?' = 1
      let rest1 := if forceQuery then rest0.dropLast else (cut '?' rest0).1
      let rawQuery := if forceQuery then [] else (cut '?' rest0).2.1
      let url0 : URL := { Scheme := scheme, ForceQuery := forceQuery, RawQuery := rawQuery }
      if ¬ ['/'].isPrefixOf rest1 ∧ scheme ≠ [] then some { url0 with Opaque := rest1 }
      else if ¬ ['/'].isPrefixOf rest1 ∧ viaRequest then none
      else if ¬ ['/'].isPrefixOf rest1 ∧ ':' ∈ (cut '/' rest1).1 then none
      else if (scheme ≠ [] ∨ (!viaRequest ∧ ¬ ['/', '/', '/'].isPrefixOf rest1)) ∧
          ['/', '/'].isPrefixOf rest1 then
        let authority0 := rest1.drop 2
        let authority := authority0.takeWhile (· ≠ '/')
        let rest2 := authority0.dropWhile (· ≠ '/')
        match parseAuthority authority with
        | none => none
        | some (user, host) => ({ url0 with User := user, Host := host } : URL).setPath rest2
      else if scheme ≠ [] ∧ ['/'].isPrefixOf rest1 then
        ({ url0 with OmitHost := true } : URL).setPath rest1
      else url0.setPath rest1

/-- Go `url.Parse`. -/
def Parse (rawURL : GoString) : Option URL :=
  let r := cut '#' rawURL
  match parse r.1 false with
  | none => none
  | some u => if r.2.1 = [] then some u else u.setFragment r.2.1

/-- The loop of Go `resolvePath`: `dst` is the builder content after its leading `/`,
`first` the flag of the source, `elems` the remaining `/`-separated elements. -/
def resolveElems (dst : GoString) (first : Bool) : List GoString → GoString
  | [] => dst
  | elem :: elems =>
    if elem = ['.'] then resolveElems dst false elems
    else if elem = ['.', '.'] then
      match cutLast '/' dst with
      | none => resolveElems [] true elems
      | some (keep, _) => resolveElems keep first elems
    else resolveElems (dst ++ (if first then elem else '/' :: elem)) false elems

/-- The `/`-separated elements of a string, as successive `strings.Cut` calls yield them. -/
def splitSlash : GoString → List GoString
  | [] => [[]]
  | c :: rest =>
    if c = '/' then [] :: splitSlash rest
    else
      match splitSlash rest with
      | [] => [[c]]
      | e :: es => (c :: e) :: es

/-- Go `resolvePath`. -/
def resolvePath (base ref : GoString) : GoString :=
  let full :=
    match ref with
    | [] => base
    | c :: _ =>
      if c ≠ '/' then
        match cutLast '/' base with
        | none => ref
        | some (dir, _) => dir ++ '/' :: ref
      else ref
  if full = [] then []
  else
    let elems := splitSlash full
    let dst := resolveElems [] true elems
    let last := elems.getLast?
    let r := '/' :: (if last = some ['.'] ∨ last = some ['.', '.'] then dst ++ ['/'] else dst)
    match r with
    | _ :: '/' :: _ => r.drop 1
    | _ => r

/-- Go `(*URL).setPath` with the error ignored, as `ResolveReference` calls it. -/
def URL.setPathIgnoringError (u : URL) (p : GoString) : URL :=
  (u.setPath p).getD u

/-- Go `(*URL).ResolveReference`. -/
def URL.ResolveReference (u ref : URL) : URL :=
  let url1 : URL := if ref.Scheme = [] then { ref with Scheme := u.Scheme } else ref
  if ref.Scheme ≠ [] ∨ ref.Host ≠ [] ∨ ref.User ≠ none then
    url1.setPathIgnoringError (resolvePath ref.EscapedPath [])
  else if ref.Opaque ≠ [] then { url1 with User := none, Host := [], Path := [] }
  else
    let url2 : URL :=
      if ref.Path = [] ∧ ¬ ref.ForceQuery ∧ ref.RawQuery = [] then
        if ref.Fragment = [] then
          { url1 with RawQuery := u.RawQuery, Fragment := u.Fragment,
                      RawFragment := u.RawFragment }
        else { url1 with RawQuery := u.RawQuery }
      else url1
    if ref.Path = [] ∧ u.Opaque ≠ [] then
      { url2 with Opaque := u.Opaque, User := none, Host := [], Path := [] }
    else
      ({ url2 with Host := u.Host, User := u.User } : URL).setPathIgnoringError
        (resolvePath u.EscapedPath ref.EscapedPath)

/-- Go `(*URL).Parse`. -/
def URL.Parse (u : URL) (ref : GoString) : Option URL :=
  (Gohls.url.Parse ref).map fun refURL => u.ResolveReference refURL

/-- Go `(*Userinfo).String`. -/
def Userinfo.String (ui : Userinfo) : GoString :=
  escape ui.username .encodeUserPassword ++
    (if ui.passwordSet then ':' :: escape ui.password .encodeUserPassword else [])

/-- Go `(*URL).String`. -/
def URL.String (u : URL) : GoString :=
  let scheme := if u.Scheme ≠ [] then u.Scheme ++ [':'] else []
  let rest :=
    if u.Opaque ≠ [] then scheme ++ u.Opaque
    else
      let auth : GoString :=
        if u.Scheme ≠ [] ∨ u.Host ≠ [] ∨ u.User ≠ none then
          if u.OmitHost ∧ u.Host = [] ∧ u.User = none then []
          else
            (if u.Host ≠ [] ∨ u.Path ≠ [] ∨ u.User ≠ none then ['/', '/'] else []) ++
            (match u.User with
              | some ui => ui.String ++ ['@']
              | none => []) ++
            (if u.Host ≠ [] then escape u.Host .encodeHost else [])
        else []
      let path := u.EscapedPath
      let buf := scheme ++ auth ++
        (if path ≠ [] ∧ path.head? ≠ some '/' ∧ u.Host ≠ [] then ['/'] else [])
      let buf2 := if buf = [] ∧ ':' ∈ (cut '/' path).1 then ['.', '/'] else buf
      buf2 ++ path
  rest ++ (if u.ForceQuery ∨ u.RawQuery ≠ [] then '?' :: u.RawQuery else []) ++
    (if u.Fragment ≠ [] then '#' :: u.EscapedFragment else [])

end url

/-- Go's `net/url` as the library of `getPlaylist`. -/
def goURL : NetURL where
  URL := url.URL
  Parse s := url.Parse s.toList
  RefParse u ref := u.Parse ref.toList
  Str u := String.mk u.String
  QueryUnescape s := (url.QueryUnescape s.toList).map String.mk

/-! ## `getPlaylist` -/

/-- What lines 116-132 make of one segment URI. -/
inductive Norm where
  /-- The normalized URI `msURI`. -/
  | ok (msURI : String)
  /-- Line 125-126: `log.Print(err); continue`. -/
  | skip
  /-- Lines 120 and 130: `log.Fatal(err)`. -/
  | fatal
  deriving DecidableEq, Repr

/-- Source lines 116-132: the normalized fetch URI of a segment. -/
def normalize (lib : NetURL) (playlistUrl : lib.URL) (uri : String) : Norm :=
  if HasPrefix uri "http" then
    match lib.QueryUnescape uri with
    | none => .fatal
    | some msURI => .ok msURI
  else
    match lib.RefParse playlistUrl uri with
    | none => .skip
    | some msUrl =>
      match lib.QueryUnescape (lib.Str msUrl) with
      | none => .fatal
      | some msURI => .ok msURI

/-- Observable actions of `getPlaylist`, in program order. -/
inductive Event where
  /-- Line 102: the playlist request `doRequest(client, req)`. -/
  | request
  /-- Lines 104 and 125: `log.Print(err)`. -/
  | logPrint
  /-- Lines 105 and 153: `time.Sleep(d)`, `d` in nanoseconds. -/
  | sleep (d : Int)
  /-- Line 133: `cache.Get(msURI)` and its second result. -/
  | cacheGet (key : String) (hit : Bool)
  /-- Line 141: `dlc <- &Download{msURI, recDuration}`. -/
  | send (d : Download)
  /-- Lines 144 and 150: `close(dlc)`. -/
  | close
  deriving DecidableEq, Repr

/-- How a run of `getPlaylist` ends. -/
inductive Outcome where
  /-- Line 145: `return` after the target check. -/
  | returnedTarget
  /-- Line 151: `return` after a closed playlist. -/
  | returnedClosed
  /-- The process exits in `log.Fatal`. -/
  | fatal
  /-- The process panics dereferencing the nil `resp` at line 107. -/
  | nilDeref
  /-- The environment script is used up: the loop is about to issue its next request. -/
  | polling
  deriving DecidableEq, Repr

/-- Outcome of one iteration's playlist request and decode (lines 102-112). -/
inductive Fetch where
  /-- The call `doRequest` returns `resp == nil, err != nil`. -/
  | transportError
  /-- The call `m3u8.DecodeFrom` returns an error. -/
  | decodeError
  /-- The playlist decodes with `listType != m3u8.MEDIA`. -/
  | master
  /-- The playlist decodes to a media playlist. -/
  | media (mpl : MediaPlaylist)
  deriving DecidableEq, Repr

/-- The local variables of `getPlaylist` that live across iterations; `ticks` counts the
calls of `time.Now()` made at line 137. -/
structure State where
  cache : Cache
  recDuration : Int
  ticks : Nat
  deriving DecidableEq, Repr

/-- Source line 143: `recTime != 0 && recDuration != 0 && recDuration >= recTime`. -/
def targetReached (recTime recDuration : Int) : Bool :=
  recTime != 0 && recDuration != 0 && decide (recDuration ≥ recTime)

/-- Source lines 133-142 for a segment with normalized URI `msURI`: the cache lookup and,
on a miss, the insertion, the update of `recDuration` and the send. -/
def visit (useLocalTime : Bool) (now : Nat → Int) (st : State) (v : MediaSegment)
    (msURI : String) : State × List Event :=
  let (cache, hit) := st.cache.Get msURI
  if hit then
    ({ st with cache := cache }, [.cacheGet msURI true])
  else
    let recDuration :=
      if useLocalTime then now st.ticks else wrapInt64 (st.recDuration + v.DurationNs)
    ({ cache := cache.Add msURI, recDuration := recDuration,
       ticks := if useLocalTime then st.ticks + 1 else st.ticks },
     [.cacheGet msURI false, .send ⟨msURI, recDuration⟩])

/-- How the `for _, v := range mpl.Segments` loop is left. -/
inductive Exit where
  /-- The range is exhausted. -/
  | finished
  /-- Lines 144-145. -/
  | target
  /-- A `log.Fatal` at line 120 or 130. -/
  | fatal
  deriving DecidableEq, Repr

/-- Result of the segment loop. -/
structure LoopResult where
  st : State
  events : List Event
  exit : Exit
  deriving DecidableEq, Repr

/-- Prefix the events of a result. -/
def LoopResult.emit (evs : List Event) (r : LoopResult) : LoopResult :=
  { r with events := evs ++ r.events }

/-- Source lines 114-148: the loop over `mpl.Segments`. -/
def segmentLoop (lib : NetURL) (playlistUrl : lib.URL) (recTime : Int) (useLocalTime : Bool)
    (now : Nat → Int) (st : State) : List (Option MediaSegment) → LoopResult
  | [] => ⟨st, [], .finished⟩
  | none :: vs => segmentLoop lib playlistUrl recTime useLocalTime now st vs
  | some v :: vs =>
    match normalize lib playlistUrl v.URI with
    | .fatal => ⟨st, [], .fatal⟩
    | .skip => (segmentLoop lib playlistUrl recTime useLocalTime now st vs).emit [.logPrint]
    | .ok msURI =>
      let r := visit useLocalTime now st v msURI
      if targetReached recTime r.1.recDuration then ⟨r.1, r.2 ++ [.close], .target⟩
      else (segmentLoop lib playlistUrl recTime useLocalTime now r.1 vs).emit r.2

/-- Result of a run of `getPlaylist`. -/
structure Run where
  events : List Event
  outcome : Outcome
  deriving DecidableEq, Repr

/-- Prefix the events of a run. -/
def Run.emit (evs : List Event) (r : Run) : Run :=
  { r with events := evs ++ r.events }

/-- Source lines 97-158: the polling loop, one `Fetch` per iteration. `http.NewRequest`
(line 98) fails only for a URL that `url.Parse` rejects, which line 93 has excluded. -/
def pollLoop (lib : NetURL) (playlistUrl : lib.URL) (recTime : Int) (useLocalTime : Bool)
    (now : Nat → Int) (st : State) : List Fetch → Run
  | [] => ⟨[], .polling⟩
  | .transportError :: _ => ⟨[.request, .logPrint, .sleep 3000000000], .nilDeref⟩
  | .decodeError :: _ => ⟨[.request], .fatal⟩
  | .master :: _ => ⟨[.request], .fatal⟩
  | .media mpl :: fs =>
    let r := segmentLoop lib playlistUrl recTime useLocalTime now st mpl.Segments
    match r.exit with
    | .fatal => ⟨.request :: r.events, .fatal⟩
    | .target => ⟨.request :: r.events, .returnedTarget⟩
    | .finished =>
      if mpl.Closed then ⟨.request :: (r.events ++ [.close]), .returnedClosed⟩
      else (pollLoop lib playlistUrl recTime useLocalTime now r.st fs).emit
        (.request :: (r.events ++ [.sleep mpl.TargetDurationNs]))

/-- Source lines 90-92: the initial values of the loop variables. -/
def State.init : State := ⟨Cache.New 1024, 0, 0⟩

/-- Source lines 89-159: `getPlaylist(urlStr, recTime, useLocalTime, dlc)` run against the
playlist outcomes `polls` and the clock `now`; `now k` is the value of
`time.Now().Sub(startTime)` at the `k`-th evaluation of line 137. -/
def getPlaylist (lib : NetURL) (now : Nat → Int) (urlStr : String) (recTime : Int)
    (useLocalTime : Bool) (polls : List Fetch) : Run :=
  match lib.Parse urlStr with
  | none => ⟨[], .fatal⟩
  | some playlistUrl => pollLoop lib playlistUrl recTime useLocalTime now State.init polls

/-- The descriptors sent on the channel, in order. -/
def sent : List Event → List Download
  | [] => []
  | .send d :: es => d :: sent es
  | _ :: es => sent es

/-- The cache lookups of a trace, in order: key and hit flag. -/
def lookups : List Event → List (String × Bool)
  | [] => []
  | .cacheGet k h :: es => (k, h) :: lookups es
  | _ :: es => lookups es

/-- Variant of `segmentLoop` that performs the target check of line 143 only in an
iteration that has just sent a new `Download` (inside the `if !hit` block). -/
def segmentLoopCheckAfterSend (lib : NetURL) (playlistUrl : lib.URL) (recTime : Int)
    (useLocalTime : Bool) (now : Nat → Int) (st : State) :
    List (Option MediaSegment) → LoopResult
  | [] => ⟨st, [], .finished⟩
  | none :: vs => segmentLoopCheckAfterSend lib playlistUrl recTime useLocalTime now st vs
  | some v :: vs =>
    match normalize lib playlistUrl v.URI with
    | .fatal => ⟨st, [], .fatal⟩
    | .skip =>
      (segmentLoopCheckAfterSend lib playlistUrl recTime useLocalTime now st vs).emit
        [.logPrint]
    | .ok msURI =>
      let r := visit useLocalTime now st v msURI
      if (st.cache.Get msURI).2 = false ∧ targetReached recTime r.1.recDuration then
        ⟨r.1, r.2 ++ [.close], .target⟩
      else (segmentLoopCheckAfterSend lib playlistUrl recTime useLocalTime now r.1 vs).emit r.2

/-- The polling loop over `segmentLoopCheckAfterSend`. -/
def pollLoopCheckAfterSend (lib : NetURL) (playlistUrl : lib.URL) (recTime : Int)
    (useLocalTime : Bool) (now : Nat → Int) (st : State) : List Fetch → Run
  | [] => ⟨[], .polling⟩
  | .transportError :: _ => ⟨[.request, .logPrint, .sleep 3000000000], .nilDeref⟩
  | .decodeError :: _ => ⟨[.request], .fatal⟩
  | .master :: _ => ⟨[.request], .fatal⟩
  | .media mpl :: fs =>
    let r := segmentLoopCheckAfterSend lib playlistUrl recTime useLocalTime now st mpl.Segments
    match r.exit with
    | .fatal => ⟨.request :: r.events, .fatal⟩
    | .target => ⟨.request :: r.events, .returnedTarget⟩
    | .finished =>
      if mpl.Closed then ⟨.request :: (r.events ++ [.close]), .returnedClosed⟩
      else (pollLoopCheckAfterSend lib playlistUrl recTime useLocalTime now r.st fs).emit
        (.request :: (r.events ++ [.sleep mpl.TargetDurationNs]))

/-- The synchroniser over `pollLoopCheckAfterSend`. -/
def getPlaylistCheckAfterSend (lib : NetURL) (now : Nat → Int) (urlStr : String)
    (recTime : Int) (useLocalTime : Bool) (polls : List Fetch) : Run :=
  match lib.Parse urlStr with
  | none => ⟨[], .fatal⟩
  | some playlistUrl =>
    pollLoopCheckAfterSend lib playlistUrl recTime useLocalTime now State.init polls

/-! ## `downloadSegment` -/

/-- A response as `downloadSegment` uses it: the status code, the bytes that reading
`resp.Body` to its end delivers, and the fate of `io.Copy(out, resp.Body)`: `some n` when
the copy returns an error after `n` bytes were written to `out`. -/
structure Response where
  StatusCode : Int
  Body : List UInt8
  copyFails : Option Nat
  deriving DecidableEq, Repr

/-- Outcome of the request made for one descriptor (line 65). -/
inductive SegFetch where
  /-- The call `doRequest` returns an error (line 66). -/
  | transportError
  /-- The call `doRequest` returns a response. -/
  | response (resp : Response)
  deriving DecidableEq, Repr

/-- Observable actions of `downloadSegment`, in program order. -/
inductive DlEvent where
  /-- Line 65: `doRequest(client, req)` for the URI. -/
  | get (uri : String)
  /-- Line 67: `log.Print(err)`. -/
  | logPrint
  /-- Line 71: `log.Printf("Received HTTP %v for %v\n", ...)`. -/
  | logStatus (status : Int) (uri : String)
  /-- Line 75: the bytes that `io.Copy` writes to `out`. -/
  | write (bytes : List UInt8)
  /-- Line 80: `log.Printf("Downloaded %v\n", v.URI)`. -/
  | logDownloaded (uri : String)
  /-- Lines 82 and 84: the progress line, with the target when `recTime != 0`. -/
  | logRecorded (total : Int) (target : Option Int)
  deriving DecidableEq, Repr

/-- How a run of `downloadSegment` ends. -/
inductive DlOutcome where
  /-- The channel is closed and drained: the `range` loop ends and the function returns. -/
  | drained
  /-- The process exits in `log.Fatal` (lines 63 and 77). -/
  | fatal
  deriving DecidableEq, Repr

/-- Result of a run of `downloadSegment`. -/
structure DlRun where
  events : List DlEvent
  outcome : DlOutcome
  deriving DecidableEq, Repr

/-- Prefix the events of a run. -/
def DlRun.emit (evs : List DlEvent) (r : DlRun) : DlRun :=
  { r with events := evs ++ r.events }

/-- Source lines 59-87: `downloadSegment(out, dlc, recTime)` run on the descriptors that
arrive on `dlc` before it is closed, each paired with the outcome its request gets.
`http.NewRequest("GET", v.URI, nil)` (line 61) fails exactly when `url.Parse` rejects
`v.URI` (the method is valid), which ends the process at line 63. -/
def downloadSegment (lib : NetURL) (recTime : Int) : List (Download × SegFetch) → DlRun
  | [] => ⟨[], .drained⟩
  | (v, f) :: rest =>
    match lib.Parse v.URI with
    | none => ⟨[], .fatal⟩
    | some _ =>
      match f with
      | .transportError =>
        (downloadSegment lib recTime rest).emit [.get v.URI, .logPrint]
      | .response resp =>
        if resp.StatusCode ≠ 200 then
          (downloadSegment lib recTime rest).emit
            [.get v.URI, .logStatus resp.StatusCode v.URI]
        else
          match resp.copyFails with
          | some n => ⟨[.get v.URI, .write (resp.Body.take n)], .fatal⟩
          | none =>
            (downloadSegment lib recTime rest).emit
              [.get v.URI, .write resp.Body, .logDownloaded v.URI,
               .logRecorded v.totalDuration (if recTime ≠ 0 then some recTime else none)]

/-- The bytes written to the sink `out`, in order. -/
def sinkBytes : List DlEvent → List UInt8
  | [] => []
  | .write bs :: es => bs ++ sinkBytes es
  | _ :: es => sinkBytes es

/-- The URIs requested, in order. -/
def requested : List DlEvent → List String
  | [] => []
  | .get uri :: es => uri :: requested es
  | _ :: es => requested es

/-! ## Specification-side definitions and proof invariants -/

/-- What the refinement proof tracks about a finished segment loop. -/
def LoopResult.CheckedSends (recTime : Int) (r : LoopResult) : Prop :=
  (r.exit ≠ .target → targetReached recTime r.st.recDuration = false ∧
      ∀ d ∈ sent r.events, targetReached recTime d.totalDuration = false) ∧
  (r.exit = .target → ∃ pre d, r.events = pre ++ [.send d, .close] ∧
      targetReached recTime d.totalDuration = true ∧
      ∀ e ∈ sent pre, targetReached recTime e.totalDuration = false)

/-- What the refinement proof tracks about a run. -/
def Run.CheckedSends (recTime : Int) (r : Run) : Prop :=
  (r.outcome ≠ .returnedTarget →
      ∀ d ∈ sent r.events, targetReached recTime d.totalDuration = false) ∧
  (r.outcome = .returnedTarget → ∃ pre d, r.events = pre ++ [.send d, .close] ∧
      targetReached recTime d.totalDuration = true ∧
      ∀ e ∈ sent pre, targetReached recTime e.totalDuration = false)

/-- The cache after the lookup of line 133 and, on a miss, the insertion of line 135. -/
def Cache.touch (c : Cache) (key : String) : Cache :=
  if (c.Get key).2 then (c.Get key).1 else (c.Get key).1.Add key

/-- A sequence of lookups (key and hit flag) is what the cache `c` answers when each lookup
is followed, on a miss, by the insertion of the key. -/
def Cache.Consistent : Cache → List (String × Bool) → Prop
  | _, [] => True
  | c, (k, h) :: rest => h = decide (k ∈ c.ll) ∧ Cache.Consistent (c.touch k) rest

/-- The key `u` is in the cache, and every key in front of it is one of `S`. -/
def Cache.Behind (u : String) (S : List String) (c : Cache) : Prop :=
  ∃ p rest, c.ll = p ++ u :: rest ∧ p.Nodup ∧ ∀ x ∈ p, x ∈ S

/-- The keys of the lookups that missed, in order. -/
def misses (evs : List Event) : List String :=
  ((lookups evs).filter fun p => !p.2).map Prod.fst

/-- The trace `evs`, produced from cache `c` and leaving cache `c2`, sends exactly the keys
that missed, and its lookups are consistent with `c` whatever consistent lookups follow. -/
def TraceOK (c : Cache) (evs : List Event) (c2 : Cache) : Prop :=
  (sent evs).map Download.URI = misses evs ∧
  ∀ L, c2.Consistent L → c.Consistent (lookups evs ++ L)

/-- The values `int64(v.Duration * 1000000000)` of the non-nil segments of a playlist. -/
def segmentDurations (segs : List (Option MediaSegment)) : List Int :=
  segs.filterMap fun s => s.map fun v => v.DurationNs

/-- The segment durations of all media playlists of a script, in order. -/
def pollDurations : List Fetch → List Int
  | [] => []
  | .media mpl :: fs => segmentDurations mpl.Segments ++ pollDurations fs
  | _ :: fs => pollDurations fs

/-- The `totalDuration` values of the descriptors sent, in order. -/
def totals (evs : List Event) : List Int := (sent evs).map Download.totalDuration

/-- The list is non-decreasing and bounded below by `lo`. -/
def MonoFrom (lo : Int) (l : List Int) : Prop :=
  l.Pairwise (· ≤ ·) ∧ ∀ x ∈ l, lo ≤ x

/-- The normalized URI of an outcome of lines 116-132, if there is one. -/
def Norm.uri? : Norm → Option String
  | .ok msURI => some msURI
  | _ => none

/-- The normalized URIs of the non-nil segments whose URI resolves, in playlist order. -/
def resolvedURIs (lib : NetURL) (playlistUrl : lib.URL) (segs : List (Option MediaSegment)) :
    List String :=
  segs.filterMap fun s => s.bind fun v => (normalize lib playlistUrl v.URI).uri?

/-- The number of non-nil segments that lines 123-126 skip. -/
def unresolved (lib : NetURL) (playlistUrl : lib.URL) (segs : List (Option MediaSegment)) :
    Nat :=
  segs.countP fun s => s.any fun v => normalize lib playlistUrl v.URI = .skip

/-- The number of non-nil segments. -/
def listed (segs : List (Option MediaSegment)) : Nat := segs.countP Option.isSome

/-- No non-nil segment of the list runs into the `log.Fatal` of line 120 or 130. -/
def NoFatal (lib : NetURL) (playlistUrl : lib.URL) (segs : List (Option MediaSegment)) : Prop :=
  ∀ v, some v ∈ segs → normalize lib playlistUrl v.URI ≠ .fatal

/-- The bodies of the descriptors answered with status 200, concatenated in arrival order. -/
def bodies200 : List (Download × SegFetch) → List UInt8
  | [] => []
  | (_, .response resp) :: rest =>
    if resp.StatusCode = 200 then resp.Body ++ bodies200 rest else bodies200 rest
  | (_, .transportError) :: rest => bodies200 rest

/-- When the response is copied to the sink (line 75), the copy succeeds. -/
def SegFetch.CopyOK : SegFetch → Prop
  | .transportError => True
  | .response resp => resp.StatusCode = 200 → resp.copyFails = none

/-- The newly seen segments of a playlist processed with cache `c`: the non-nil segments
whose URI resolves and whose normalized URI is not in the seen-segment cache when the
segments are looked up in playlist order, each with its normalized URI. The list ends at a
segment that runs into `log.Fatal`. -/
def newlySeen (lib : NetURL) (playlistUrl : lib.URL) :
    Cache → List (Option MediaSegment) → List (String × MediaSegment)
  | _, [] => []
  | c, none :: vs => newlySeen lib playlistUrl c vs
  | c, some v :: vs =>
    match normalize lib playlistUrl v.URI with
    | .fatal => []
    | .skip => newlySeen lib playlistUrl c vs
    | .ok msURI =>
      if msURI ∈ c.ll then newlySeen lib playlistUrl (c.touch msURI) vs
      else (msURI, v) :: newlySeen lib playlistUrl (c.touch msURI) vs

/-- The seen-segment cache after the resolvable segments of a playlist were looked up in
order (up to a segment that runs into `log.Fatal`). -/
def cacheAfter (lib : NetURL) (playlistUrl : lib.URL) :
    Cache → List (Option MediaSegment) → Cache
  | c, [] => c
  | c, none :: vs => cacheAfter lib playlistUrl c vs
  | c, some v :: vs =>
    match normalize lib playlistUrl v.URI with
    | .fatal => c
    | .skip => cacheAfter lib playlistUrl c vs
    | .ok msURI => cacheAfter lib playlistUrl (c.touch msURI) vs

/-- The newly seen segments of successive playlists, the cache carried from one playlist to
the next. -/
def newlySeenPolls (lib : NetURL) (playlistUrl : lib.URL) :
    Cache → List MediaPlaylist → List (String × MediaSegment)
  | _, [] => []
  | c, m :: ms =>
    newlySeen lib playlistUrl c m.Segments ++
      newlySeenPolls lib playlistUrl (cacheAfter lib playlistUrl c m.Segments) ms

/-- The media playlists of a poll script, in order. -/
def mediaPlaylists : List Fetch → List MediaPlaylist
  | [] => []
  | .media mpl :: fs => mpl :: mediaPlaylists fs
  | _ :: fs => mediaPlaylists fs

/-- The parsed form of `http://host/path/playlist.m3u8`. -/
def examplePlaylistUrl : url.URL :=
  { Scheme := "http".toList, Host := "host".toList, Path := "/path/playlist.m3u8".toList }

/-- Two polls of a live playlist whose window slides by one segment; the second is closed. -/
def exampleLivePolls : List Fetch :=
  [.media ⟨[some ⟨"a.ts", 5000000000⟩, some ⟨"b.ts", 5000000000⟩], false, 5000000000⟩,
   .media ⟨[some ⟨"a.ts", 5000000000⟩, some ⟨"b.ts", 5000000000⟩, some ⟨"c.ts", 5000000000⟩],
     true, 5000000000⟩]

/-- A closed playlist with a nil entry and a segment URI that `url.Parse` rejects. -/
def exampleVodPlaylist : MediaPlaylist :=
  ⟨[some ⟨"a.ts", 5000000000⟩, none, some ⟨":bad", 5000000000⟩, some ⟨"b.ts", 5000000000⟩],
    true, 5000000000⟩

/-- Four descriptors with their responses: 200, 404, a transport error, 200. -/
def exampleItems : List (Download × SegFetch) :=
  [(⟨"http://host/path/a.ts", 5000000000⟩, .response ⟨200, [1, 2], none⟩),
   (⟨"http://host/path/b.ts", 10000000000⟩, .response ⟨404, [9], none⟩),
   (⟨"http://host/path/c.ts", 15000000000⟩, .transportError),
   (⟨"http://host/path/d.ts", 20000000000⟩, .response ⟨200, [3], none⟩)]


/-- The descriptors that the metadata policy sends for newly seen segments when no addition
wraps around: each carries the recorded duration `r` plus the durations up to its segment. -/
def cumulative : Int → List (String × MediaSegment) → List Download
  | _, [] => []
  | r, (u, v) :: ps => ⟨u, r + v.DurationNs⟩ :: cumulative (r + v.DurationNs) ps

/-- A loop state as the second poll of a live playlist finds it: `a.ts` was sent with 5 s. -/
def exampleSecondPollState : State :=
  ⟨⟨1024, ["http://host/path/a.ts"]⟩, 5000000000, 0⟩

/-- A playlist that starts with a segment already seen and contains a nil entry, a repeated
URI and a URI that `url.Parse` rejects. -/
def exampleMixedSegments : List (Option MediaSegment) :=
  [some ⟨"a.ts", 5000000000⟩, none, some ⟨"b.ts", 3000000000⟩, some ⟨"b.ts", 3000000000⟩,
   some ⟨":bad", 9000000000⟩, some ⟨"c.ts", 2000000000⟩]

/-! ## Theorems -/

theorem sent_append (a b : List Event) : sent (a ++ b) = sent a ++ sent b := by
  induction a with
  | nil => rfl
  | cons e a ih => cases e <;> simp [sent, ih]

theorem visit_hit (useLocalTime : Bool) (now : Nat → Int) (st : State) (v : MediaSegment)
    (msURI : String) (h : msURI ∈ st.cache.ll) :
    visit useLocalTime now st v msURI =
      ({ st with cache := ⟨st.cache.MaxEntries, msURI :: st.cache.ll.erase msURI⟩ },
       [.cacheGet msURI true]) := by
  simp [visit, Cache.Get, h]

theorem visit_miss (useLocalTime : Bool) (now : Nat → Int) (st : State) (v : MediaSegment)
    (msURI : String) (h : msURI ∉ st.cache.ll) :
    visit useLocalTime now st v msURI =
      ({ cache := st.cache.Add msURI,
         recDuration :=
           if useLocalTime then now st.ticks else wrapInt64 (st.recDuration + v.DurationNs),
         ticks := if useLocalTime then st.ticks + 1 else st.ticks },
       [.cacheGet msURI false,
        .send ⟨msURI,
          if useLocalTime then now st.ticks else wrapInt64 (st.recDuration + v.DurationNs)⟩]) := by
  simp [visit, Cache.Get, h]

theorem segmentLoop_cons_skip (lib : NetURL) (playlistUrl : lib.URL) (recTime : Int)
    (useLocalTime : Bool) (now : Nat → Int) (st : State) (v : MediaSegment)
    (vs : List (Option MediaSegment)) (hn : normalize lib playlistUrl v.URI = .skip) :
    segmentLoop lib playlistUrl recTime useLocalTime now st (some v :: vs) =
      (segmentLoop lib playlistUrl recTime useLocalTime now st vs).emit [.logPrint] := by
  simp [segmentLoop, hn]

theorem segmentLoop_cons_fatal (lib : NetURL) (playlistUrl : lib.URL) (recTime : Int)
    (useLocalTime : Bool) (now : Nat → Int) (st : State) (v : MediaSegment)
    (vs : List (Option MediaSegment)) (hn : normalize lib playlistUrl v.URI = .fatal) :
    segmentLoop lib playlistUrl recTime useLocalTime now st (some v :: vs) =
      ⟨st, [], .fatal⟩ := by
  simp [segmentLoop, hn]

theorem segmentLoop_cons_miss (lib : NetURL) (playlistUrl : lib.URL) (recTime : Int)
    (useLocalTime : Bool) (now : Nat → Int) (st : State) (v : MediaSegment)
    (vs : List (Option MediaSegment)) (msURI : String)
    (hn : normalize lib playlistUrl v.URI = .ok msURI) (hit : msURI ∉ st.cache.ll) (rd : Int)
    (hrd : rd = if useLocalTime then now st.ticks else wrapInt64 (st.recDuration + v.DurationNs)) :
    segmentLoop lib playlistUrl recTime useLocalTime now st (some v :: vs) =
      if targetReached recTime rd then
        ⟨⟨st.cache.Add msURI, rd, if useLocalTime then st.ticks + 1 else st.ticks⟩,
          [.cacheGet msURI false, .send ⟨msURI, rd⟩, .close], .target⟩
      else
        (segmentLoop lib playlistUrl recTime useLocalTime now
          ⟨st.cache.Add msURI, rd, if useLocalTime then st.ticks + 1 else st.ticks⟩ vs).emit
          [.cacheGet msURI false, .send ⟨msURI, rd⟩] := by
  subst hrd
  simp [segmentLoop, hn, visit_miss useLocalTime now st v msURI hit]

theorem segmentLoop_cons_hit (lib : NetURL) (playlistUrl : lib.URL) (recTime : Int)
    (useLocalTime : Bool) (now : Nat → Int) (st : State) (v : MediaSegment)
    (vs : List (Option MediaSegment)) (msURI : String)
    (hn : normalize lib playlistUrl v.URI = .ok msURI) (hit : msURI ∈ st.cache.ll) :
    segmentLoop lib playlistUrl recTime useLocalTime now st (some v :: vs) =
      if targetReached recTime st.recDuration then
        ⟨{ st with cache := ⟨st.cache.MaxEntries, msURI :: st.cache.ll.erase msURI⟩ },
          [.cacheGet msURI true, .close], .target⟩
      else
        (segmentLoop lib playlistUrl recTime useLocalTime now
          { st with cache := ⟨st.cache.MaxEntries, msURI :: st.cache.ll.erase msURI⟩ } vs).emit
          [.cacheGet msURI true] := by
  simp [segmentLoop, hn, visit_hit useLocalTime now st v msURI hit]

theorem sent_emit_loop (evs : List Event) (r : LoopResult) :
    sent (r.emit evs).events = sent evs ++ sent r.events := by
  simp [LoopResult.emit, sent_append]

theorem LoopResult.CheckedSends.emit_loop {recTime : Int} {r : LoopResult} (evs : List Event)
    (h : r.CheckedSends recTime)
    (hev : ∀ d ∈ sent evs, targetReached recTime d.totalDuration = false) :
    (r.emit evs).CheckedSends recTime := by
  obtain ⟨h1, h2⟩ := h
  refine ⟨fun hx => ?_, fun hx => ?_⟩
  · obtain ⟨a, b⟩ := h1 hx
    refine ⟨a, fun d hd => ?_⟩
    simp only [LoopResult.emit, sent_append, List.mem_append] at hd
    rcases hd with hd | hd
    · exact hev d hd
    · exact b d hd
  · obtain ⟨pre, d, e1, e2, e3⟩ := h2 hx
    refine ⟨evs ++ pre, d, ?_, e2, fun e he => ?_⟩
    · simp [LoopResult.emit, e1]
    · simp only [sent_append, List.mem_append] at he
      rcases he with he | he
      · exact hev e he
      · exact e3 e he

theorem segmentLoop_refines (lib : NetURL) (playlistUrl : lib.URL) (recTime : Int)
    (useLocalTime : Bool) (now : Nat → Int) (segs : List (Option MediaSegment)) :
    ∀ st : State, targetReached recTime st.recDuration = false →
      segmentLoop lib playlistUrl recTime useLocalTime now st segs =
        segmentLoopCheckAfterSend lib playlistUrl recTime useLocalTime now st segs ∧
      (segmentLoop lib playlistUrl recTime useLocalTime now st segs).CheckedSends recTime := by
  induction segs with
  | nil =>
    intro st hst
    simp [segmentLoop, segmentLoopCheckAfterSend, LoopResult.CheckedSends, hst, sent]
  | cons seg vs ih =>
    intro st hst
    cases seg with
    | none => simpa [segmentLoop, segmentLoopCheckAfterSend] using ih st hst
    | some v =>
      simp only [segmentLoop, segmentLoopCheckAfterSend]
      cases hn : normalize lib playlistUrl v.URI with
      | fatal => simp [LoopResult.CheckedSends, hst, sent]
      | skip =>
        obtain ⟨e, c⟩ := ih st hst
        refine ⟨by simp [e], c.emit_loop _ ?_⟩
        simp [sent]
      | ok msURI =>
        by_cases hit : msURI ∈ st.cache.ll
        · have hv := visit_hit useLocalTime now st v msURI hit
          have hst2 : targetReached recTime
              ({ st with cache := ⟨st.cache.MaxEntries, msURI :: st.cache.ll.erase msURI⟩ } :
                State).recDuration = false := hst
          obtain ⟨e, c⟩ := ih _ hst2
          simp only [hv, hst, Cache.Get, hit, if_true]
          refine ⟨by simp [e], c.emit_loop _ ?_⟩
          simp [sent]
        · have hv := visit_miss useLocalTime now st v msURI hit
          generalize (if useLocalTime then now st.ticks
            else wrapInt64 (st.recDuration + v.DurationNs)) = rd at hv
          generalize (if useLocalTime then st.ticks + 1 else st.ticks) = tk at hv
          simp only [hv, Cache.Get, hit, if_false, true_and]
          by_cases hr : targetReached recTime rd = true
          · simp only [hr, if_true, true_and]
            refine ⟨fun hx => absurd rfl hx, fun _ => ⟨[.cacheGet msURI false], _, rfl, hr, ?_⟩⟩
            simp [sent]
          · simp only [hr, if_false]
            have hr2 : targetReached recTime rd = false := by simpa using hr
            obtain ⟨e, c⟩ := ih ⟨st.cache.Add msURI, rd, tk⟩ hr2
            refine ⟨by simp [e], c.emit_loop _ ?_⟩
            simp [sent, hr2]

theorem Run.CheckedSends.emit_run {recTime : Int} {r : Run} (evs : List Event)
    (h : r.CheckedSends recTime)
    (hev : ∀ d ∈ sent evs, targetReached recTime d.totalDuration = false) :
    (r.emit evs).CheckedSends recTime := by
  obtain ⟨h1, h2⟩ := h
  refine ⟨fun hx d hd => ?_, fun hx => ?_⟩
  · simp only [Run.emit, sent_append, List.mem_append] at hd
    rcases hd with hd | hd
    · exact hev d hd
    · exact h1 hx d hd
  · obtain ⟨pre, d, e1, e2, e3⟩ := h2 hx
    refine ⟨evs ++ pre, d, ?_, e2, fun e he => ?_⟩
    · simp [Run.emit, e1]
    · simp only [sent_append, List.mem_append] at he
      rcases he with he | he
      · exact hev e he
      · exact e3 e he

theorem pollLoop_refines (lib : NetURL) (playlistUrl : lib.URL) (recTime : Int)
    (useLocalTime : Bool) (now : Nat → Int) (polls : List Fetch) :
    ∀ st : State, targetReached recTime st.recDuration = false →
      pollLoop lib playlistUrl recTime useLocalTime now st polls =
        pollLoopCheckAfterSend lib playlistUrl recTime useLocalTime now st polls ∧
      (pollLoop lib playlistUrl recTime useLocalTime now st polls).CheckedSends recTime := by
  induction polls with
  | nil => intro st _; simp [pollLoop, pollLoopCheckAfterSend, Run.CheckedSends, sent]
  | cons f fs ih =>
    intro st hst
    cases f with
    | transportError => simp [pollLoop, pollLoopCheckAfterSend, Run.CheckedSends, sent]
    | decodeError => simp [pollLoop, pollLoopCheckAfterSend, Run.CheckedSends, sent]
    | master => simp [pollLoop, pollLoopCheckAfterSend, Run.CheckedSends, sent]
    | media mpl =>
      obtain ⟨e, c1, c2⟩ := segmentLoop_refines lib playlistUrl recTime useLocalTime now
        mpl.Segments st hst
      simp only [pollLoop, pollLoopCheckAfterSend, ← e]
      cases hx : (segmentLoop lib playlistUrl recTime useLocalTime now st mpl.Segments).exit with
      | fatal =>
        refine ⟨rfl, fun _ d hd => ?_, fun h => by simp at h⟩
        have := (c1 (by simp [hx])).2
        simp only [sent] at hd
        exact this d hd
      | target =>
        refine ⟨rfl, fun h => by simp at h, fun _ => ?_⟩
        obtain ⟨pre, d, e1, e2, e3⟩ := c2 hx
        refine ⟨.request :: pre, d, by simp [e1], e2, fun x hxm => ?_⟩
        simp only [sent] at hxm
        exact e3 x hxm
      | finished =>
        have hc := c1 (by simp [hx])
        by_cases hcl : mpl.Closed = true
        · simp only [hcl, if_true]
          refine ⟨trivial, fun _ d hd => ?_, fun h => by simp at h⟩
          simp only [sent, sent_append, List.append_nil] at hd
          exact hc.2 d hd
        · simp only [hcl]
          obtain ⟨e2, c⟩ := ih _ hc.1
          refine ⟨by simp [e2], c.emit_run _ fun d hd => ?_⟩
          simp only [sent, sent_append, List.append_nil] at hd
          exact hc.2 d hd

theorem targetReached_init (recTime : Int) :
    targetReached recTime State.init.recDuration = false := by
  simp [targetReached, State.init]

theorem mem_of_mem_dropLast {α : Type} {l : List α} {a : α} (h : a ∈ l.dropLast) : a ∈ l :=
  (List.dropLast_sublist l).subset h

/-- C10 (the target check fires only after a send). Every run of `getPlaylist` equals the
run of the variant that performs the check of line 143 only in an iteration that has just
sent a descriptor; every descriptor sent except possibly the last carries a `totalDuration`
that does not satisfy the termination condition; and a run that returns through the target
check ends with a send of a descriptor satisfying the condition, followed by `close`. -/
theorem getPlaylist_check_only_after_send (lib : NetURL) (now : Nat → Int) (urlStr : String)
    (recTime : Int) (useLocalTime : Bool) (polls : List Fetch) :
    getPlaylist lib now urlStr recTime useLocalTime polls =
        getPlaylistCheckAfterSend lib now urlStr recTime useLocalTime polls ∧
      (∀ d ∈ (sent (getPlaylist lib now urlStr recTime useLocalTime polls).events).dropLast,
        targetReached recTime d.totalDuration = false) ∧
      ((getPlaylist lib now urlStr recTime useLocalTime polls).outcome = .returnedTarget →
        ∃ pre d, (getPlaylist lib now urlStr recTime useLocalTime polls).events =
            pre ++ [.send d, .close] ∧ targetReached recTime d.totalDuration = true) := by
  unfold getPlaylist getPlaylistCheckAfterSend
  cases lib.Parse urlStr with
  | none => simp [sent]
  | some playlistUrl =>
    obtain ⟨e, c1, c2⟩ := pollLoop_refines lib playlistUrl recTime useLocalTime now polls
      State.init (targetReached_init recTime)
    refine ⟨e, fun d hd => ?_, fun h => ?_⟩
    · by_cases ho : (pollLoop lib playlistUrl recTime useLocalTime now State.init polls).outcome
          = .returnedTarget
      · obtain ⟨pre, x, e1, _, e3⟩ := c2 ho
        simp only [e1, sent_append, sent] at hd
        rw [List.dropLast_concat] at hd
        exact e3 d hd
      · exact c1 ho d (mem_of_mem_dropLast hd)
    · obtain ⟨pre, x, e1, e2, _⟩ := c2 h
      exact ⟨pre, x, e1, e2⟩

theorem Cache.touch_maxEntries (c : Cache) (k : String) :
    (c.touch k).MaxEntries = c.MaxEntries := by
  by_cases h : k ∈ c.ll
  · simp [Cache.touch, Cache.Get, h]
  · have e : c.touch k = c.Add k := by simp [Cache.touch, Cache.Get, h]
    rw [e]
    simp only [Cache.Add, h, if_false]
    split_ifs <;> rfl

theorem Cache.touch_of_mem (c : Cache) (k : String) (h : k ∈ c.ll) :
    (c.touch k).ll = k :: c.ll.erase k := by
  simp [Cache.touch, Cache.Get, h]

theorem Cache.touch_of_not_mem (c : Cache) (k : String) (h : k ∉ c.ll) :
    (c.touch k).ll =
      if c.MaxEntries ≠ 0 ∧ (k :: c.ll).length > c.MaxEntries then (k :: c.ll).dropLast
      else k :: c.ll := by
  have e : c.touch k = c.Add k := by simp [Cache.touch, Cache.Get, h]
  rw [e]
  simp only [Cache.Add, h, if_false]
  split_ifs <;> rfl

/-- After a touch the key is at the front of the recency list. -/
theorem Cache.touch_head (c : Cache) (k : String) : ∃ rest, (c.touch k).ll = k :: rest := by
  by_cases h : k ∈ c.ll
  · exact ⟨_, c.touch_of_mem k h⟩
  · rw [c.touch_of_not_mem k h]
    split
    · rename_i hc
      cases hl : c.ll with
      | nil => simp [hl] at hc
      | cons a l => exact ⟨(a :: l).dropLast, by simp [List.dropLast]⟩
    · exact ⟨_, rfl⟩

theorem Cache.Behind.mem {u : String} {S : List String} {c : Cache} (h : c.Behind u S) :
    u ∈ c.ll := by
  obtain ⟨p, rest, e, _, _⟩ := h
  simp [e]

theorem nodup_length_le_card {p S : List String} (hp : p.Nodup) (hs : ∀ x ∈ p, x ∈ S) :
    p.length ≤ S.toFinset.card := by
  rw [← List.toFinset_card_of_nodup hp]
  apply Finset.card_le_card
  intro x hx
  simp only [List.mem_toFinset] at hx ⊢
  exact hs x hx

/-- One touch of another key keeps `u` in the cache while fewer than `MaxEntries` distinct
keys have been touched since `u`. -/
theorem Cache.Behind.touch {u k : String} {S : List String} {c : Cache}
    (h : c.Behind u S) (hk : k ≠ u)
    (hcap : c.MaxEntries = 0 ∨ (k :: S).toFinset.card < c.MaxEntries) :
    (c.touch k).Behind u (k :: S) := by
  obtain ⟨p, rest, e, hp, hs⟩ := h
  by_cases hkp : k ∈ p
  · have hmem : k ∈ c.ll := by simp [e, hkp]
    refine ⟨k :: p.erase k, rest, ?_, ?_, ?_⟩
    · rw [c.touch_of_mem k hmem, e, List.erase_append_left _ hkp]; simp
    · exact List.nodup_cons.2 ⟨hp.not_mem_erase, hp.erase k⟩
    · intro x hx
      rcases List.mem_cons.1 hx with rfl | hx
      · simp
      · exact List.mem_cons_of_mem _ (hs x (List.mem_of_mem_erase hx))
  · have hp2 : (k :: p).Nodup := List.nodup_cons.2 ⟨hkp, hp⟩
    have hs2 : ∀ x ∈ k :: p, x ∈ k :: S := by
      intro x hx
      rcases List.mem_cons.1 hx with rfl | hx
      · simp
      · exact List.mem_cons_of_mem _ (hs x hx)
    by_cases hmem : k ∈ c.ll
    · refine ⟨k :: p, rest.erase k, ?_, hp2, hs2⟩
      rw [c.touch_of_mem k hmem, e, List.erase_append_right _ hkp,
        List.erase_cons_tail (by simpa using Ne.symm hk)]
      simp
    · rw [Cache.Behind, c.touch_of_not_mem k hmem]
      split
      · rename_i hc
        have hlen := nodup_length_le_card hp2 hs2
        have hrest : rest ≠ [] := by
          rintro rfl
          rcases hcap with h0 | hlt
          · exact hc.1 h0
          · have h1 : (k :: c.ll).length = p.length + 2 := by simp [e]
            have h2 : (k :: p).length = p.length + 1 := rfl
            have := hc.2
            omega
        refine ⟨k :: p, rest.dropLast, ?_, hp2, hs2⟩
        have : k :: c.ll = (k :: p ++ [u]) ++ rest := by simp [e]
        rw [this, List.dropLast_append_of_ne_nil _ hrest]
        simp
      · exact ⟨k :: p, rest, by simp [e], hp2, hs2⟩

theorem Cache.Consistent.window {u : String} (mid : List (String × Bool)) :
    ∀ (c : Cache) (S : List String) (h2 : Bool) (post : List (String × Bool)),
      c.Behind u S → u ∉ mid.map Prod.fst →
      (c.MaxEntries = 0 ∨ (mid.map Prod.fst ++ S).toFinset.card < c.MaxEntries) →
      c.Consistent (mid ++ (u, h2) :: post) → h2 = true := by
  induction mid with
  | nil =>
    intro c S h2 post hb _ _ hc
    simp only [List.nil_append, Cache.Consistent] at hc
    simp [hc.1, hb.mem]
  | cons x mid ih =>
    intro c S h2 post hb hu hcap hc
    obtain ⟨k, h⟩ := x
    simp only [List.map_cons, List.mem_cons, not_or] at hu
    simp only [List.cons_append, Cache.Consistent] at hc
    have hsub : (k :: S).toFinset ⊆ (List.map Prod.fst ((k, h) :: mid) ++ S).toFinset := by
      intro y hy
      simp only [List.mem_toFinset, List.mem_cons, List.map_cons, List.cons_append,
        List.mem_append] at hy ⊢
      tauto
    have heq : (List.map Prod.fst mid ++ k :: S).toFinset =
        (List.map Prod.fst ((k, h) :: mid) ++ S).toFinset := by
      ext y
      simp only [List.mem_toFinset, List.mem_cons, List.map_cons, List.cons_append,
        List.mem_append]
      tauto
    have hb2 : (c.touch k).Behind u (k :: S) := by
      refine hb.touch (Ne.symm hu.1) ?_
      rcases hcap with h0 | hlt
      · exact Or.inl h0
      · exact Or.inr (lt_of_le_of_lt (Finset.card_le_card hsub) hlt)
    refine ih (c.touch k) (k :: S) h2 post hb2 hu.2 ?_ hc.2
    rw [c.touch_maxEntries, heq]
    exact hcap

theorem Cache.Consistent.drop (pre : List (String × Bool)) :
    ∀ (c : Cache) (L : List (String × Bool)), c.Consistent (pre ++ L) →
      ∃ c2 : Cache, c2.MaxEntries = c.MaxEntries ∧ c2.Consistent L := by
  induction pre with
  | nil => intro c L h; exact ⟨c, rfl, h⟩
  | cons x pre ih =>
    intro c L h
    obtain ⟨k, b⟩ := x
    simp only [List.cons_append, Cache.Consistent] at h
    obtain ⟨c2, e, h2⟩ := ih _ _ h.2
    exact ⟨c2, by rw [e, c.touch_maxEntries], h2⟩

/-- A key that reappears after fewer than `MaxEntries` other distinct keys is a hit. -/
theorem Cache.Consistent.hit_within_window {c : Cache} {u : String} {h1 h2 : Bool}
    {pre mid post : List (String × Bool)}
    (hc : c.Consistent (pre ++ (u, h1) :: (mid ++ (u, h2) :: post)))
    (hu : u ∉ mid.map Prod.fst)
    (hcap : c.MaxEntries = 0 ∨ (mid.map Prod.fst).dedup.length < c.MaxEntries) :
    h2 = true := by
  obtain ⟨c2, e, h⟩ := Cache.Consistent.drop pre c _ hc
  simp only [Cache.Consistent] at h
  obtain ⟨rest, hr⟩ := c2.touch_head u
  have hb : (c2.touch u).Behind u [] := ⟨[], rest, by simp [hr], List.nodup_nil, by simp⟩
  refine Cache.Consistent.window mid (c2.touch u) [] h2 post hb hu ?_ h.2
  rw [c2.touch_maxEntries, e, List.append_nil, List.card_toFinset]
  exact hcap

theorem lookups_append (a b : List Event) : lookups (a ++ b) = lookups a ++ lookups b := by
  induction a with
  | nil => rfl
  | cons e a ih => cases e <;> simp [lookups, ih]

theorem misses_append (a b : List Event) : misses (a ++ b) = misses a ++ misses b := by
  simp [misses, lookups_append]

theorem TraceOK.nil (c : Cache) : TraceOK c [] c := by
  simp [TraceOK, sent, misses, lookups]

theorem TraceOK.append {c c2 c3 : Cache} {a b : List Event} (ha : TraceOK c a c2)
    (hb : TraceOK c2 b c3) : TraceOK c (a ++ b) c3 := by
  refine ⟨by simp [sent_append, misses_append, ha.1, hb.1], fun L hL => ?_⟩
  rw [lookups_append, List.append_assoc]
  exact ha.2 _ (hb.2 L hL)

theorem TraceOK.silent (c : Cache) (evs : List Event) (h1 : sent evs = [])
    (h2 : lookups evs = []) : TraceOK c evs c := by
  simp [TraceOK, h1, h2, misses]

theorem visit_traceOK (useLocalTime : Bool) (now : Nat → Int) (st : State) (v : MediaSegment)
    (msURI : String) :
    TraceOK st.cache (visit useLocalTime now st v msURI).2
      (visit useLocalTime now st v msURI).1.cache := by
  by_cases hit : msURI ∈ st.cache.ll
  · rw [visit_hit useLocalTime now st v msURI hit]
    refine ⟨by simp [sent, misses, lookups], fun L hL => ?_⟩
    simp only [lookups, List.cons_append, List.nil_append, Cache.Consistent]
    refine ⟨by simp [hit], ?_⟩
    have : st.cache.touch msURI = ⟨st.cache.MaxEntries, msURI :: st.cache.ll.erase msURI⟩ := by
      simp [Cache.touch, Cache.Get, hit]
    rw [this]; exact hL
  · rw [visit_miss useLocalTime now st v msURI hit]
    refine ⟨by simp [sent, misses, lookups], fun L hL => ?_⟩
    simp only [lookups, List.cons_append, List.nil_append, Cache.Consistent]
    refine ⟨by simp [hit], ?_⟩
    have : st.cache.touch msURI = st.cache.Add msURI := by
      simp [Cache.touch, Cache.Get, hit]
    rw [this]; exact hL

theorem segmentLoop_traceOK (lib : NetURL) (playlistUrl : lib.URL) (recTime : Int)
    (useLocalTime : Bool) (now : Nat → Int) (segs : List (Option MediaSegment)) :
    ∀ st : State,
      TraceOK st.cache (segmentLoop lib playlistUrl recTime useLocalTime now st segs).events
        (segmentLoop lib playlistUrl recTime useLocalTime now st segs).st.cache := by
  induction segs with
  | nil => intro st; exact TraceOK.nil _
  | cons seg vs ih =>
    intro st
    cases seg with
    | none => simpa [segmentLoop] using ih st
    | some v =>
      simp only [segmentLoop]
      cases hn : normalize lib playlistUrl v.URI with
      | fatal => exact TraceOK.nil _
      | skip =>
        exact (TraceOK.silent st.cache [.logPrint] rfl rfl).append (ih st)
      | ok msURI =>
        have hv := visit_traceOK useLocalTime now st v msURI
        simp only []
        split
        · exact hv.append (TraceOK.silent _ [.close] rfl rfl)
        · exact hv.append (ih _)

theorem pollLoop_traceOK (lib : NetURL) (playlistUrl : lib.URL) (recTime : Int)
    (useLocalTime : Bool) (now : Nat → Int) (polls : List Fetch) :
    ∀ st : State, ∃ c2,
      TraceOK st.cache (pollLoop lib playlistUrl recTime useLocalTime now st polls).events c2 := by
  induction polls with
  | nil => intro st; exact ⟨_, TraceOK.nil _⟩
  | cons f fs ih =>
    intro st
    cases f with
    | transportError => exact ⟨st.cache, TraceOK.silent _ _ rfl rfl⟩
    | decodeError => exact ⟨st.cache, TraceOK.silent _ _ rfl rfl⟩
    | master => exact ⟨st.cache, TraceOK.silent _ _ rfl rfl⟩
    | media mpl =>
      have hs := segmentLoop_traceOK lib playlistUrl recTime useLocalTime now mpl.Segments st
      have hreq : TraceOK st.cache [Event.request] st.cache := TraceOK.silent _ _ rfl rfl
      simp only [pollLoop]
      cases hx : (segmentLoop lib playlistUrl recTime useLocalTime now st mpl.Segments).exit with
      | fatal => exact ⟨_, hreq.append hs⟩
      | target => exact ⟨_, hreq.append hs⟩
      | finished =>
        by_cases hcl : mpl.Closed = true
        · simp only [hcl, if_true]
          exact ⟨_, hreq.append (hs.append (TraceOK.silent _ [.close] rfl rfl))⟩
        · simp only [hcl]
          obtain ⟨c2, h2⟩ := ih
            (segmentLoop lib playlistUrl recTime useLocalTime now st mpl.Segments).st
          refine ⟨c2, ?_⟩
          have := (hreq.append (hs.append
            (TraceOK.silent _ [.sleep mpl.TargetDurationNs] rfl rfl))).append h2
          simpa [Run.emit] using this

theorem getPlaylist_traceOK (lib : NetURL) (now : Nat → Int) (urlStr : String)
    (recTime : Int) (useLocalTime : Bool) (polls : List Fetch) :
    ∃ c2, TraceOK (Cache.New 1024)
      (getPlaylist lib now urlStr recTime useLocalTime polls).events c2 := by
  unfold getPlaylist
  cases lib.Parse urlStr with
  | none => exact ⟨_, TraceOK.nil _⟩
  | some playlistUrl =>
    exact pollLoop_traceOK lib playlistUrl recTime useLocalTime now polls State.init

theorem exists_last_occurrence {u : String} (l : List (String × Bool)) :
    u ∈ l.map Prod.fst → ∃ a h b, l = a ++ (u, h) :: b ∧ u ∉ b.map Prod.fst := by
  induction l with
  | nil => simp
  | cons x l ih =>
    intro hm
    by_cases hl : u ∈ l.map Prod.fst
    · obtain ⟨a, h, b, e, hb⟩ := ih hl
      exact ⟨x :: a, h, b, by simp [e], hb⟩
    · obtain ⟨k, h⟩ := x
      simp only [List.map_cons, List.mem_cons] at hm
      rcases hm with rfl | hm
      · exact ⟨[], h, l, rfl, hl⟩
      · exact absurd hm hl

theorem misses_count_le_one {u : String} (l : List (String × Bool)) :
    (∀ pre post h, l = pre ++ (u, h) :: post → u ∈ pre.map Prod.fst → h = true) →
      ((l.filter fun p => !p.2).map Prod.fst).count u ≤ 1 := by
  induction l with
  | nil => simp
  | cons x l ih =>
    intro hall
    obtain ⟨k, b⟩ := x
    have hall2 : ∀ pre post h, l = pre ++ (u, h) :: post → u ∈ pre.map Prod.fst → h = true := by
      intro pre post h e hm
      exact hall ((k, b) :: pre) post h (by simp [e]) (by simp [hm])
    by_cases hk : k = u
    · subst hk
      have hzero : ((l.filter fun p => !p.2).map Prod.fst).count k = 0 := by
        rw [List.count_eq_zero]
        intro hmem
        simp only [List.mem_map, List.mem_filter, Bool.not_eq_eq_eq_not, Bool.not_true] at hmem
        obtain ⟨⟨k2, b2⟩, ⟨hin, hb2⟩, hk2⟩ := hmem
        simp only at hk2 hb2
        subst hk2
        obtain ⟨s, t, e⟩ := List.append_of_mem hin
        have := hall ((k2, b) :: s) t b2 (by simp [e]) (by simp)
        rw [this] at hb2
        exact Bool.noConfusion hb2
      cases b with
      | true => simp [List.filter, hzero]
      | false => simp [List.filter, hzero]
    · have := ih hall2
      cases b with
      | true => simpa [List.filter] using this
      | false => simpa [List.filter, List.count_cons, hk] using this

/-- C1 (dedup invariant). In any run of `getPlaylist`, let `u` be a normalized segment URI
such that between any two consecutive lookups of `u` fewer than 1024 other distinct URIs are
looked up (the capacity window of the LRU cache created at line 92). Then every lookup of `u`
after its first one is a cache hit, and `u` is sent on the channel at most once. -/
theorem getPlaylist_dedup_within_window (lib : NetURL) (now : Nat → Int) (urlStr : String)
    (recTime : Int) (useLocalTime : Bool) (polls : List Fetch) (u : String)
    (hwin : ∀ pre mid post : List String,
      (lookups (getPlaylist lib now urlStr recTime useLocalTime polls).events).map Prod.fst =
          pre ++ u :: (mid ++ u :: post) →
        u ∉ mid → mid.dedup.length < 1024) :
    (∀ pre post h,
      lookups (getPlaylist lib now urlStr recTime useLocalTime polls).events =
          pre ++ (u, h) :: post →
        u ∈ pre.map Prod.fst → h = true) ∧
    ((sent (getPlaylist lib now urlStr recTime useLocalTime polls).events).map
      Download.URI).count u ≤ 1 := by
  obtain ⟨c2, hs, hc⟩ := getPlaylist_traceOK lib now urlStr recTime useLocalTime polls
  have hcons := hc [] trivial
  rw [List.append_nil] at hcons
  have hits : ∀ pre post h,
      lookups (getPlaylist lib now urlStr recTime useLocalTime polls).events =
          pre ++ (u, h) :: post →
        u ∈ pre.map Prod.fst → h = true := by
    intro pre post h e hm
    obtain ⟨a, h1, mid, e2, hmid⟩ := exists_last_occurrence pre hm
    have e3 : lookups (getPlaylist lib now urlStr recTime useLocalTime polls).events =
        a ++ (u, h1) :: (mid ++ (u, h) :: post) := by simp [e, e2]
    rw [e3] at hcons
    refine hcons.hit_within_window hmid (Or.inr ?_)
    exact hwin (a.map Prod.fst) (mid.map Prod.fst) (post.map Prod.fst) (by simp [e3]) hmid
  refine ⟨hits, ?_⟩
  rw [hs]
  exact misses_count_le_one _ hits

theorem totals_append (a b : List Event) : totals (a ++ b) = totals a ++ totals b := by
  simp [totals, sent_append]

theorem MonoFrom.weaken {lo lo2 : Int} {l : List Int} (h : MonoFrom lo2 l) (hle : lo ≤ lo2) :
    MonoFrom lo l :=
  ⟨h.1, fun x hx => le_trans hle (h.2 x hx)⟩

theorem MonoFrom.cons {lo x : Int} {l : List Int} (h : MonoFrom x l) (hle : lo ≤ x) :
    MonoFrom lo (x :: l) := by
  refine ⟨List.pairwise_cons.2 ⟨h.2, h.1⟩, fun y hy => ?_⟩
  rcases List.mem_cons.1 hy with rfl | hy
  · exact hle
  · exact le_trans hle (h.2 y hy)

theorem wrapInt64_of_range {x : Int} (h1 : -2 ^ 63 ≤ x) (h2 : x < 2 ^ 63) : wrapInt64 x = x := by
  unfold wrapInt64
  norm_num at h1 h2 ⊢
  omega

theorem segmentLoop_mono_wall (lib : NetURL) (playlistUrl : lib.URL) (recTime : Int)
    (now : Nat → Int) (hnow : Monotone now) (segs : List (Option MediaSegment)) :
    ∀ (st : State) (tail : List Int),
      MonoFrom (now (segmentLoop lib playlistUrl recTime true now st segs).st.ticks) tail →
      MonoFrom (now st.ticks)
        (totals (segmentLoop lib playlistUrl recTime true now st segs).events ++ tail) := by
  induction segs with
  | nil => intro st tail h; simpa [segmentLoop, totals, sent] using h
  | cons seg vs ih =>
    intro st tail
    cases seg with
    | none => simpa [segmentLoop] using ih st tail
    | some v =>
      simp only [segmentLoop]
      cases hn : normalize lib playlistUrl v.URI with
      | fatal => intro h; simpa [totals, sent] using h
      | skip => simpa [LoopResult.emit, totals, sent] using ih st tail
      | ok msURI =>
        simp only []
        by_cases hit : msURI ∈ st.cache.ll
        · rw [visit_hit true now st v msURI hit]
          split
          · intro h; simpa [totals, sent] using h
          · simpa [LoopResult.emit, totals, sent] using ih _ tail
        · rw [visit_miss true now st v msURI hit]
          simp only [if_true]
          split
          · intro h
            simp only [totals, sent, List.map_cons, List.map_nil, List.cons_append,
              List.nil_append]
            exact (h.weaken (hnow (Nat.le_succ _))).cons le_rfl
          · intro h
            have := ih _ tail h
            simp only [LoopResult.emit, totals, sent, sent_append, List.map_cons,
              List.map_append, List.cons_append, List.nil_append] at this ⊢
            exact (this.weaken (hnow (Nat.le_succ _))).cons le_rfl

theorem pollLoop_mono_wall (lib : NetURL) (playlistUrl : lib.URL) (recTime : Int)
    (now : Nat → Int) (hnow : Monotone now) (polls : List Fetch) :
    ∀ st : State,
      MonoFrom (now st.ticks) (totals (pollLoop lib playlistUrl recTime true now st polls).events) := by
  have hnil : ∀ lo : Int, MonoFrom lo [] := fun lo => ⟨List.Pairwise.nil, by simp⟩
  induction polls with
  | nil => intro st; simpa [pollLoop, totals, sent] using hnil _
  | cons f fs ih =>
    intro st
    cases f with
    | transportError => simpa [pollLoop, totals, sent] using hnil _
    | decodeError => simpa [pollLoop, totals, sent] using hnil _
    | master => simpa [pollLoop, totals, sent] using hnil _
    | media mpl =>
      have hs := segmentLoop_mono_wall lib playlistUrl recTime now hnow mpl.Segments st
      simp only [pollLoop]
      cases hx : (segmentLoop lib playlistUrl recTime true now st mpl.Segments).exit with
      | fatal => simpa [totals, sent] using hs [] (hnil _)
      | target => simpa [totals, sent] using hs [] (hnil _)
      | finished =>
        by_cases hcl : mpl.Closed = true
        · simp only [hcl, if_true]
          simpa [totals, sent, sent_append] using hs [] (hnil _)
        · simp only [hcl]
          have := hs _ (ih (segmentLoop lib playlistUrl recTime true now st mpl.Segments).st)
          simpa [Run.emit, totals, sent, sent_append] using this

theorem segmentLoop_mono_meta (lib : NetURL) (playlistUrl : lib.URL) (recTime : Int)
    (now : Nat → Int) (segs : List (Option MediaSegment)) :
    ∀ (st : State), (∀ d ∈ segmentDurations segs, 0 ≤ d) → -2 ^ 63 ≤ st.recDuration →
      st.recDuration + (segmentDurations segs).sum < 2 ^ 63 →
      (st.recDuration ≤ (segmentLoop lib playlistUrl recTime false now st segs).st.recDuration ∧
        (segmentLoop lib playlistUrl recTime false now st segs).st.recDuration ≤
          st.recDuration + (segmentDurations segs).sum) ∧
      ∀ tail : List Int,
        MonoFrom (segmentLoop lib playlistUrl recTime false now st segs).st.recDuration tail →
        MonoFrom st.recDuration
          (totals (segmentLoop lib playlistUrl recTime false now st segs).events ++ tail) := by
  induction segs with
  | nil =>
    intro st _ _ _
    simp [segmentLoop, totals, sent, segmentDurations]
  | cons seg vs ih =>
    intro st hpos hlo hhi
    cases seg with
    | none => simpa [segmentLoop, segmentDurations] using ih st (by simpa [segmentDurations] using hpos) hlo (by simpa [segmentDurations] using hhi)
    | some v =>
      have hv : 0 ≤ v.DurationNs := hpos _ (by simp [segmentDurations])
      have hpos2 : ∀ d ∈ segmentDurations vs, 0 ≤ d := fun d hd =>
        hpos d (by simp only [segmentDurations, List.filterMap_cons, Option.map_some',
          List.mem_cons] at hd ⊢; exact Or.inr hd)
      have hsum : 0 ≤ (segmentDurations vs).sum := List.sum_nonneg hpos2
      have hhi2 : st.recDuration + (v.DurationNs + (segmentDurations vs).sum) < 2 ^ 63 := by
        simpa [segmentDurations] using hhi
      have hsumeq : (segmentDurations (some v :: vs)).sum =
          v.DurationNs + (segmentDurations vs).sum := by simp [segmentDurations]
      rw [hsumeq]
      have hih := ih st hpos2 hlo (by omega)
      simp only [segmentLoop]
      cases hn : normalize lib playlistUrl v.URI with
      | fatal => exact ⟨⟨le_rfl, by dsimp only; omega⟩, fun tail h => by simpa [totals, sent] using h⟩
      | skip =>
        refine ⟨⟨hih.1.1, ?_⟩, ?_⟩
        · have := hih.1.2
          simp only [LoopResult.emit]; omega
        · simpa [LoopResult.emit, totals, sent] using hih.2
      | ok msURI =>
        simp only []
        by_cases hit : msURI ∈ st.cache.ll
        · rw [visit_hit false now st v msURI hit]
          split
          · exact ⟨⟨le_rfl, by dsimp only; omega⟩, fun tail h => by simpa [totals, sent] using h⟩
          · have hih2 := ih { st with cache := ⟨st.cache.MaxEntries, msURI :: st.cache.ll.erase msURI⟩ }
              hpos2 hlo (by dsimp only; omega)
            refine ⟨⟨hih2.1.1, ?_⟩, ?_⟩
            · have := hih2.1.2
              simp only [LoopResult.emit] at this ⊢; omega
            · simpa [LoopResult.emit, totals, sent] using hih2.2
        · rw [visit_miss false now st v msURI hit]
          have hw : wrapInt64 (st.recDuration + v.DurationNs) = st.recDuration + v.DurationNs :=
            wrapInt64_of_range (by omega) (by omega)
          simp only [Bool.false_eq_true, if_false, hw]
          split
          · refine ⟨⟨by dsimp only; omega, by dsimp only; omega⟩, fun tail h => ?_⟩
            simp only [totals, sent, List.map_cons, List.map_nil, List.cons_append,
              List.nil_append]
            exact h.cons (by dsimp only; omega)
          · have hih2 := ih ⟨st.cache.Add msURI, st.recDuration + v.DurationNs, st.ticks⟩
              hpos2 (by dsimp only; omega) (by dsimp only; omega)
            refine ⟨⟨?_, ?_⟩, fun tail h => ?_⟩
            · have := hih2.1.1
              simp only [LoopResult.emit] at this ⊢; omega
            · have := hih2.1.2
              simp only [LoopResult.emit] at this ⊢; omega
            · have := hih2.2 tail h
              simp only [LoopResult.emit, totals, sent, sent_append, List.map_cons,
                List.map_append, List.cons_append, List.nil_append] at this ⊢
              exact this.cons (by omega)

theorem pollLoop_mono_meta (lib : NetURL) (playlistUrl : lib.URL) (recTime : Int)
    (now : Nat → Int) (polls : List Fetch) :
    ∀ st : State, (∀ d ∈ pollDurations polls, 0 ≤ d) → -2 ^ 63 ≤ st.recDuration →
      st.recDuration + (pollDurations polls).sum < 2 ^ 63 →
      MonoFrom st.recDuration
        (totals (pollLoop lib playlistUrl recTime false now st polls).events) := by
  have hnil : ∀ lo : Int, MonoFrom lo [] := fun lo => ⟨List.Pairwise.nil, by simp⟩
  induction polls with
  | nil => intro st _ _ _; simpa [pollLoop, totals, sent] using hnil _
  | cons f fs ih =>
    intro st hpos hlo hhi
    cases f with
    | transportError => simpa [pollLoop, totals, sent] using hnil _
    | decodeError => simpa [pollLoop, totals, sent] using hnil _
    | master => simpa [pollLoop, totals, sent] using hnil _
    | media mpl =>
      simp only [pollDurations, List.mem_append, List.sum_append] at hpos hhi
      have hpos2 : ∀ d ∈ pollDurations fs, 0 ≤ d := fun d hd => hpos d (Or.inr hd)
      have hsum : 0 ≤ (pollDurations fs).sum := List.sum_nonneg hpos2
      have hs := segmentLoop_mono_meta lib playlistUrl recTime now mpl.Segments st
        (fun d hd => hpos d (Or.inl hd)) hlo (by omega)
      simp only [pollLoop]
      cases hx : (segmentLoop lib playlistUrl recTime false now st mpl.Segments).exit with
      | fatal => simpa [totals, sent] using hs.2 [] (hnil _)
      | target => simpa [totals, sent] using hs.2 [] (hnil _)
      | finished =>
        by_cases hcl : mpl.Closed = true
        · simp only [hcl, if_true]
          simpa [totals, sent, sent_append] using hs.2 [] (hnil _)
        · simp only [hcl]
          have h2 := ih (segmentLoop lib playlistUrl recTime false now st mpl.Segments).st hpos2
            (by have := hs.1.1; omega) (by have := hs.1.2; omega)
          have := hs.2 _ h2
          simpa [Run.emit, totals, sent, sent_append] using this

/-- C4 (duration monotonicity, amended). The `totalDuration` values of the descriptors sent
by a run of `getPlaylist` are non-decreasing, under the wall-clock policy when the readings
of `time.Now().Sub(startTime)` are non-decreasing, and under the metadata policy when every
listed segment duration is non-negative and their sum stays below `2^63` nanoseconds. -/
theorem getPlaylist_totalDuration_nondecreasing (lib : NetURL) (now : Nat → Int)
    (urlStr : String) (recTime : Int) (useLocalTime : Bool) (polls : List Fetch)
    (h : if useLocalTime then Monotone now
      else (∀ d ∈ pollDurations polls, 0 ≤ d) ∧ (pollDurations polls).sum < 2 ^ 63) :
    (totals (getPlaylist lib now urlStr recTime useLocalTime polls).events).Pairwise
      (· ≤ ·) := by
  unfold getPlaylist
  cases lib.Parse urlStr with
  | none => simp [totals, sent]
  | some playlistUrl =>
    cases useLocalTime with
    | true =>
      exact (pollLoop_mono_wall lib playlistUrl recTime now (by simpa using h) polls
        State.init).1
    | false =>
      simp only [Bool.false_eq_true, if_false] at h
      exact (pollLoop_mono_meta lib playlistUrl recTime now polls State.init h.1
        (by simp [State.init]) (by simpa [State.init] using h.2)).1

theorem Cache.mem_add {c : Cache} {u x : String} (h : x ∈ (c.Add u).ll) : x = u ∨ x ∈ c.ll := by
  unfold Cache.Add at h
  split_ifs at h with h1 h2
  · rcases List.mem_cons.1 h with h | h
    · exact Or.inl h
    · exact Or.inr (List.mem_of_mem_erase h)
  · exact List.mem_cons.1 ((List.dropLast_sublist _).subset h)
  · exact List.mem_cons.1 h

theorem targetReached_zero (d : Int) : targetReached 0 d = false := by
  simp [targetReached]

theorem segmentLoop_fresh (lib : NetURL) (playlistUrl : lib.URL)
    (useLocalTime : Bool) (now : Nat → Int) (segs : List (Option MediaSegment)) :
    ∀ st : State,
      (∀ v, some v ∈ segs → normalize lib playlistUrl v.URI ≠ .fatal) →
      (resolvedURIs lib playlistUrl segs).Nodup →
      (∀ u ∈ resolvedURIs lib playlistUrl segs, u ∉ st.cache.ll) →
      (segmentLoop lib playlistUrl 0 useLocalTime now st segs).exit = .finished ∧
      (sent (segmentLoop lib playlistUrl 0 useLocalTime now st segs).events).map Download.URI
        = resolvedURIs lib playlistUrl segs ∧
      (sent (segmentLoop lib playlistUrl 0 useLocalTime now st segs).events).length +
        unresolved lib playlistUrl segs = listed segs ∧
      Event.request ∉ (segmentLoop lib playlistUrl 0 useLocalTime now st segs).events ∧
      Event.close ∉ (segmentLoop lib playlistUrl 0 useLocalTime now st segs).events := by
  induction segs with
  | nil => intro st _ _ _; simp [segmentLoop, sent, resolvedURIs, unresolved, listed]
  | cons seg vs ih =>
    intro st hf hnd hnew
    have hf2 : ∀ v, some v ∈ vs → normalize lib playlistUrl v.URI ≠ .fatal :=
      fun v hv => hf v (List.mem_cons_of_mem _ hv)
    cases seg with
    | none =>
      simpa [segmentLoop, resolvedURIs, unresolved, listed] using
        ih st hf2 (by simpa [resolvedURIs] using hnd) (by simpa [resolvedURIs] using hnew)
    | some v =>
      cases hn : normalize lib playlistUrl v.URI with
      | fatal => exact absurd hn (hf v (by simp))
      | skip =>
        have hr : resolvedURIs lib playlistUrl (some v :: vs) = resolvedURIs lib playlistUrl vs := by
          simp [resolvedURIs, hn, Norm.uri?]
        rw [hr] at hnd hnew ⊢
        obtain ⟨h1, h2, h3, h4, h5⟩ := ih st hf2 hnd hnew
        have hu : unresolved lib playlistUrl (some v :: vs) =
            unresolved lib playlistUrl vs + 1 := by
          simp [unresolved, List.countP_cons, hn]
        have hl : listed (some v :: vs) = listed vs + 1 := by simp [listed, List.countP_cons]
        rw [segmentLoop_cons_skip _ _ _ _ _ _ _ _ hn, sent_emit_loop, hu, hl]
        refine ⟨by simpa [LoopResult.emit] using h1, by simpa [sent] using h2,
          ?_, by simpa [LoopResult.emit] using h4, by simpa [LoopResult.emit] using h5⟩
        simp only [sent, List.nil_append]
        omega
      | ok msURI =>
        have hr : resolvedURIs lib playlistUrl (some v :: vs) =
            msURI :: resolvedURIs lib playlistUrl vs := by
          simp [resolvedURIs, hn, Norm.uri?]
        rw [hr] at hnd hnew ⊢
        have hit : msURI ∉ st.cache.ll := hnew msURI (by simp)
        have hnd2 := (List.nodup_cons.1 hnd).2
        have hnotin := (List.nodup_cons.1 hnd).1
        have hnew2 : ∀ u ∈ resolvedURIs lib playlistUrl vs, u ∉ (st.cache.Add msURI).ll := by
          intro u hu hmem
          rcases Cache.mem_add hmem with rfl | h
          · exact hnotin hu
          · exact hnew u (List.mem_cons_of_mem _ hu) h
        rw [segmentLoop_cons_miss _ _ _ _ _ _ _ _ _ hn hit _ rfl, targetReached_zero]
        simp only [Bool.false_eq_true, if_false]
        obtain ⟨h1, h2, h3, h4, h5⟩ := ih ⟨st.cache.Add msURI,
          (if useLocalTime then now st.ticks else wrapInt64 (st.recDuration + v.DurationNs)),
          (if useLocalTime then st.ticks + 1 else st.ticks)⟩ hf2 hnd2 hnew2
        have hu : unresolved lib playlistUrl (some v :: vs) = unresolved lib playlistUrl vs := by
          simp [unresolved, List.countP_cons, hn]
        have hl : listed (some v :: vs) = listed vs + 1 := by simp [listed, List.countP_cons]
        rw [sent_emit_loop, hu, hl]
        refine ⟨by simpa [LoopResult.emit] using h1, by simpa [sent] using h2,
          ?_, by simpa [LoopResult.emit] using h4, by simpa [LoopResult.emit] using h5⟩
        simp only [sent, List.cons_append, List.nil_append, List.length_cons]
        omega

/-- C3 (termination on VOD, amended). Target 0, either policy, any loop state. For a decoded
playlist marked closed in which no segment runs into the fatal unescape error and whose
resolvable segments have pairwise distinct normalized URIs that are not in the cache, the
iteration makes one request, sends exactly one `Download` per resolvable segment in playlist
order (their number plus the number of unresolvable segments is the number of listed
segments), closes the channel once, as its last action, and returns (`returnedClosed`)
without looking at the rest of the poll script. -/
theorem pollLoop_closed_playlist_sends_fresh_segments (lib : NetURL) (playlistUrl : lib.URL)
    (useLocalTime : Bool) (now : Nat → Int) (st : State) (mpl : MediaPlaylist)
    (rest : List Fetch) (hclosed : mpl.Closed = true)
    (hfatal : ∀ v, some v ∈ mpl.Segments → normalize lib playlistUrl v.URI ≠ .fatal)
    (hnodup : (resolvedURIs lib playlistUrl mpl.Segments).Nodup)
    (hnew : ∀ u ∈ resolvedURIs lib playlistUrl mpl.Segments, u ∉ st.cache.ll) :
    ∃ body : List Event,
      pollLoop lib playlistUrl 0 useLocalTime now st (.media mpl :: rest) =
        ⟨.request :: (body ++ [.close]), .returnedClosed⟩ ∧
      (sent body).map Download.URI = resolvedURIs lib playlistUrl mpl.Segments ∧
      (sent body).length + unresolved lib playlistUrl mpl.Segments = listed mpl.Segments ∧
      Event.request ∉ body ∧ Event.close ∉ body := by
  obtain ⟨h1, h2, h3, h4, h5⟩ := segmentLoop_fresh lib playlistUrl useLocalTime now
    mpl.Segments st hfatal hnodup hnew
  refine ⟨_, ?_, h2, h3, h4, h5⟩
  simp [pollLoop, h1, hclosed]

theorem Cache.touch_eq_of_mem (c : Cache) (k : String) (h : k ∈ c.ll) :
    c.touch k = ⟨c.MaxEntries, k :: c.ll.erase k⟩ := by
  simp [Cache.touch, Cache.Get, h]

theorem Cache.touch_eq_of_not_mem (c : Cache) (k : String) (h : k ∉ c.ll) :
    c.touch k = c.Add k := by
  simp [Cache.touch, Cache.Get, h]

theorem NoFatal.tail {lib : NetURL} {playlistUrl : lib.URL} {s : Option MediaSegment}
    {vs : List (Option MediaSegment)} (h : NoFatal lib playlistUrl (s :: vs)) :
    NoFatal lib playlistUrl vs :=
  fun v hv => h v (List.mem_cons_of_mem _ hv)

theorem targetReached_of_lt {recTime d : Int} (h : d < recTime) :
    targetReached recTime d = false := by
  have : ¬ recTime ≤ d := by omega
  simp [targetReached, this]

theorem le_of_targetReached {recTime d : Int} (h : targetReached recTime d = true) :
    recTime ≤ d := by
  simp only [targetReached, Bool.and_eq_true, decide_eq_true_eq] at h
  exact h.2

theorem lt_of_not_targetReached {recTime d : Int} (hT : 0 < recTime)
    (h : ¬ targetReached recTime d = true) : d < recTime := by
  by_contra hge
  apply h
  have h1 : recTime ≠ 0 := by omega
  have h2 : d ≠ 0 := by omega
  have h3 : recTime ≤ d := by omega
  simp [targetReached, h1, h2, h3]

theorem segmentLoop_target (lib : NetURL) (playlistUrl : lib.URL) (recTime : Int)
    (now : Nat → Int) (hT : 0 < recTime) (post : List (Option MediaSegment))
    (pre : List (Option MediaSegment)) :
    ∀ st : State, NoFatal lib playlistUrl pre →
      (∀ p ∈ newlySeen lib playlistUrl st.cache pre, 0 ≤ p.2.DurationNs) →
      -2 ^ 63 ≤ st.recDuration → st.recDuration < recTime →
      recTime ≤ st.recDuration +
        ((newlySeen lib playlistUrl st.cache pre).map fun p => p.2.DurationNs).sum →
      st.recDuration +
        ((newlySeen lib playlistUrl st.cache pre).map fun p => p.2.DurationNs).sum < 2 ^ 63 →
      segmentLoop lib playlistUrl recTime false now st (pre ++ post) =
        segmentLoop lib playlistUrl recTime false now st pre ∧
      (segmentLoop lib playlistUrl recTime false now st pre).exit = .target ∧
      ∃ front d,
        sent (segmentLoop lib playlistUrl recTime false now st pre).events = front ++ [d] ∧
        front ++ [d] = (cumulative st.recDuration
          (newlySeen lib playlistUrl st.cache pre)).take (front.length + 1) ∧
        recTime ≤ d.totalDuration ∧ ∀ e ∈ front, e.totalDuration < recTime := by
  induction pre with
  | nil =>
    intro st _ _ _ hst hsum _
    simp [newlySeen] at hsum
    omega
  | cons seg vs ih =>
    intro st hnf hpos hlo hst hsum hhi
    cases seg with
    | none =>
      simp only [newlySeen] at hpos hsum hhi ⊢
      simpa [segmentLoop] using ih st hnf.tail hpos hlo hst hsum hhi
    | some v =>
      cases hn : normalize lib playlistUrl v.URI with
      | fatal => exact absurd hn (hnf v (by simp))
      | skip =>
        simp only [newlySeen, hn] at hpos hsum hhi ⊢
        obtain ⟨e1, e2, front, d, e3, e4, e5, e6⟩ := ih st hnf.tail hpos hlo hst hsum hhi
        rw [List.cons_append, segmentLoop_cons_skip _ _ _ _ _ _ _ _ hn,
          segmentLoop_cons_skip _ _ _ _ _ _ _ _ hn, e1]
        refine ⟨rfl, by simpa [LoopResult.emit] using e2, front, d, ?_, e4, e5, e6⟩
        rw [sent_emit_loop]
        simpa [sent] using e3
      | ok u =>
        by_cases hit : u ∈ st.cache.ll
        · simp only [newlySeen, hn, hit, if_true] at hpos hsum hhi ⊢
          rw [st.cache.touch_eq_of_mem u hit] at hpos hsum hhi ⊢
          obtain ⟨e1, e2, front, d, e3, e4, e5, e6⟩ :=
            ih { st with cache := ⟨st.cache.MaxEntries, u :: st.cache.ll.erase u⟩ }
              hnf.tail hpos hlo hst hsum hhi
          rw [List.cons_append, segmentLoop_cons_hit _ _ _ _ _ _ _ _ _ hn hit,
            segmentLoop_cons_hit _ _ _ _ _ _ _ _ _ hn hit, targetReached_of_lt hst, e1]
          simp only [Bool.false_eq_true, if_false]
          refine ⟨trivial, by simpa [LoopResult.emit] using e2, front, d, ?_, e4, e5, e6⟩
          rw [sent_emit_loop]
          simpa [sent] using e3
        · simp only [newlySeen, hn, hit, if_false, List.map_cons, List.sum_cons,
            List.mem_cons, forall_eq_or_imp] at hpos hsum hhi ⊢
          rw [st.cache.touch_eq_of_not_mem u hit] at hpos hsum hhi ⊢
          have hv : 0 ≤ v.DurationNs := hpos.1
          have hs : 0 ≤ ((newlySeen lib playlistUrl (st.cache.Add u) vs).map
              fun p => p.2.DurationNs).sum := by
            apply List.sum_nonneg
            intro x hx
            obtain ⟨p, hp, rfl⟩ := List.mem_map.1 hx
            exact hpos.2 p hp
          have hw : wrapInt64 (st.recDuration + v.DurationNs) = st.recDuration + v.DurationNs :=
            wrapInt64_of_range (by omega) (by omega)
          rw [List.cons_append,
            segmentLoop_cons_miss _ _ _ _ _ _ _ _ _ hn hit (st.recDuration + v.DurationNs)
              (by simp [hw]),
            segmentLoop_cons_miss _ _ _ _ _ _ _ _ _ hn hit (st.recDuration + v.DurationNs)
              (by simp [hw])]
          by_cases hr : targetReached recTime (st.recDuration + v.DurationNs) = true
          · simp only [if_pos hr]
            refine ⟨trivial, trivial, [], ⟨u, st.recDuration + v.DurationNs⟩, by simp [sent],
              by simp [cumulative], le_of_targetReached hr, by simp⟩
          · simp only [if_neg hr]
            have hlt := lt_of_not_targetReached hT hr
            obtain ⟨e1, e2, front, d, e3, e4, e5, e6⟩ :=
              ih ⟨st.cache.Add u, st.recDuration + v.DurationNs,
                  if false = true then st.ticks + 1 else st.ticks⟩
                hnf.tail hpos.2 (by dsimp only; omega) hlt (by dsimp only; omega)
                (by dsimp only; omega)
            simp only [Bool.false_eq_true, if_false] at e1 e2 e3 e4 ⊢
            refine ⟨by rw [e1], by simpa [LoopResult.emit] using e2,
              ⟨u, st.recDuration + v.DurationNs⟩ :: front, d, ?_, ?_, e5, ?_⟩
            · rw [sent_emit_loop]
              simp [sent, e3]
            · simp only [List.cons_append, cumulative, List.length_cons, List.take_succ_cons]
              rw [e4]
            · intro e he
              rcases List.mem_cons.1 he with rfl | he
              · exact hlt
              · exact e6 e he

theorem segmentLoop_target_events (lib : NetURL) (playlistUrl : lib.URL) (recTime : Int)
    (useLocalTime : Bool) (now : Nat → Int) (segs : List (Option MediaSegment)) :
    ∀ st : State,
      (segmentLoop lib playlistUrl recTime useLocalTime now st segs).exit = .target →
      ∃ body, (segmentLoop lib playlistUrl recTime useLocalTime now st segs).events =
        body ++ [.close] ∧ Event.close ∉ body := by
  induction segs with
  | nil => intro st h; simp [segmentLoop] at h
  | cons seg vs ih =>
    intro st
    cases seg with
    | none => simpa [segmentLoop] using ih st
    | some v =>
      cases hn : normalize lib playlistUrl v.URI with
      | fatal => rw [segmentLoop_cons_fatal _ _ _ _ _ _ _ _ hn]; intro h; simp at h
      | skip =>
        rw [segmentLoop_cons_skip _ _ _ _ _ _ _ _ hn]
        intro h
        obtain ⟨body, e, hb⟩ := ih st (by simpa [LoopResult.emit] using h)
        exact ⟨.logPrint :: body, by simp [LoopResult.emit, e], by simp [hb]⟩
      | ok msURI =>
        by_cases hit : msURI ∈ st.cache.ll
        · rw [segmentLoop_cons_hit _ _ _ _ _ _ _ _ _ hn hit]
          split
          · intro _; exact ⟨[.cacheGet msURI true], rfl, by simp⟩
          · intro h
            obtain ⟨body, e, hb⟩ := ih _ (by simpa [LoopResult.emit] using h)
            exact ⟨.cacheGet msURI true :: body, by simp [LoopResult.emit, e], by simp [hb]⟩
        · rw [segmentLoop_cons_miss _ _ _ _ _ _ _ _ _ hn hit _ rfl]
          generalize (if useLocalTime then now st.ticks
            else wrapInt64 (st.recDuration + v.DurationNs)) = rd
          by_cases hr : targetReached recTime rd = true
          · simp only [if_pos hr]
            intro _; exact ⟨[.cacheGet msURI false, .send ⟨msURI, rd⟩], rfl, by simp⟩
          · simp only [if_neg hr]
            intro h
            obtain ⟨body, e, hb⟩ := ih _ (by simpa [LoopResult.emit] using h)
            exact ⟨.cacheGet msURI false :: .send ⟨msURI, rd⟩ :: body,
              by simp [LoopResult.emit, e], by simp [hb]⟩

/-- C2 (termination on target, amended). Metadata policy, target `recTime > 0`, any loop
state with `recDuration < recTime`. Let `pre` be an initial part of the decoded playlist;
its entries may be nil, repeat a URI, be in the cache already or fail to resolve, but none
runs into the fatal unescape error. If the values `int64(v.Duration * 1000000000)` that
line 139 adds for the newly seen segments of `pre` are non-negative and `recDuration` plus
their sum reaches `recTime` without leaving the `int64` range, then the iteration ends at
line 145 (`returnedTarget`), the trace ends with its only `close`, it is the same trace
whatever follows `pre` in the playlist or in later polls, and the descriptors sent are an
initial part of the newly seen segments of `pre` with their running sums, the last with
`totalDuration >= recTime` and all earlier ones below it: the channel is closed at the
segment where the recorded duration first reaches the target, no later than the last segment
of `pre`, and nothing is sent after it. -/
theorem pollLoop_closes_on_target (lib : NetURL) (playlistUrl : lib.URL) (recTime : Int)
    (now : Nat → Int) (st : State) (pre post : List (Option MediaSegment))
    (closed : Bool) (td : Int) (rest : List Fetch)
    (hT : 0 < recTime) (hnf : NoFatal lib playlistUrl pre)
    (hpos : ∀ p ∈ newlySeen lib playlistUrl st.cache pre, 0 ≤ p.2.DurationNs)
    (hlo : -2 ^ 63 ≤ st.recDuration) (hst : st.recDuration < recTime)
    (hsum : recTime ≤ st.recDuration +
      ((newlySeen lib playlistUrl st.cache pre).map fun p => p.2.DurationNs).sum)
    (hhi : st.recDuration +
      ((newlySeen lib playlistUrl st.cache pre).map fun p => p.2.DurationNs).sum < 2 ^ 63) :
    pollLoop lib playlistUrl recTime false now st (.media ⟨pre ++ post, closed, td⟩ :: rest) =
      pollLoop lib playlistUrl recTime false now st [.media ⟨pre, closed, td⟩] ∧
    (pollLoop lib playlistUrl recTime false now st
      (.media ⟨pre ++ post, closed, td⟩ :: rest)).outcome = .returnedTarget ∧
    (∃ body, (pollLoop lib playlistUrl recTime false now st
        (.media ⟨pre ++ post, closed, td⟩ :: rest)).events =
          .request :: (body ++ [.close]) ∧ Event.close ∉ body) ∧
    ∃ front d,
      sent (pollLoop lib playlistUrl recTime false now st
        (.media ⟨pre ++ post, closed, td⟩ :: rest)).events = front ++ [d] ∧
      front ++ [d] = (cumulative st.recDuration
        (newlySeen lib playlistUrl st.cache pre)).take (front.length + 1) ∧
      recTime ≤ d.totalDuration ∧ ∀ e ∈ front, e.totalDuration < recTime := by
  obtain ⟨e1, e2, front, d, e3, e4, e5, e6⟩ := segmentLoop_target lib playlistUrl recTime now
    hT post pre st hnf hpos hlo hst hsum hhi
  obtain ⟨body, hb1, hb2⟩ :=
    segmentLoop_target_events lib playlistUrl recTime false now pre st e2
  have hp : pollLoop lib playlistUrl recTime false now st
      (.media ⟨pre ++ post, closed, td⟩ :: rest) =
      ⟨.request :: (segmentLoop lib playlistUrl recTime false now st pre).events,
        .returnedTarget⟩ := by
    simp [pollLoop, e1, e2]
  have hq : pollLoop lib playlistUrl recTime false now st [.media ⟨pre, closed, td⟩] =
      ⟨.request :: (segmentLoop lib playlistUrl recTime false now st pre).events,
        .returnedTarget⟩ := by
    simp [pollLoop, e2]
  rw [hp, hq]
  exact ⟨rfl, rfl, ⟨body, by simp [hb1], hb2⟩, front, d, by simpa [sent] using e3, e4, e5, e6⟩

theorem segmentLoop_zero (lib : NetURL) (playlistUrl : lib.URL)
    (useLocalTime : Bool) (now : Nat → Int) (segs : List (Option MediaSegment)) :
    ∀ st : State,
      (segmentLoop lib playlistUrl 0 useLocalTime now st segs).exit ≠ .target ∧
      ((segmentLoop lib playlistUrl 0 useLocalTime now st segs).exit = .finished ↔
        NoFatal lib playlistUrl segs) ∧
      Event.request ∉ (segmentLoop lib playlistUrl 0 useLocalTime now st segs).events ∧
      Event.close ∉ (segmentLoop lib playlistUrl 0 useLocalTime now st segs).events := by
  induction segs with
  | nil => intro st; simp [segmentLoop, NoFatal]
  | cons seg vs ih =>
    intro st
    have hcons : ∀ v, normalize lib playlistUrl v.URI ≠ .fatal →
        (NoFatal lib playlistUrl (some v :: vs) ↔ NoFatal lib playlistUrl vs) := by
      intro v hv
      constructor
      · intro h w hw; exact h w (List.mem_cons_of_mem _ hw)
      · intro h w hw
        rcases List.mem_cons.1 hw with e | hw
        · cases e; exact hv
        · exact h w hw
    cases seg with
    | none =>
      have : NoFatal lib playlistUrl (none :: vs) ↔ NoFatal lib playlistUrl vs := by
        simp [NoFatal]
      simpa [segmentLoop, this] using ih st
    | some v =>
      cases hn : normalize lib playlistUrl v.URI with
      | fatal =>
        rw [segmentLoop_cons_fatal _ _ _ _ _ _ _ _ hn]
        refine ⟨by simp, ?_, by simp, by simp⟩
        constructor
        · intro h; simp at h
        · intro h; exact absurd hn (h v (by simp))
      | skip =>
        rw [segmentLoop_cons_skip _ _ _ _ _ _ _ _ hn, hcons v (by simp [hn])]
        simpa [LoopResult.emit] using ih st
      | ok msURI =>
        rw [hcons v (by simp [hn])]
        by_cases hit : msURI ∈ st.cache.ll
        · rw [segmentLoop_cons_hit _ _ _ _ _ _ _ _ _ hn hit, targetReached_zero]
          simpa [LoopResult.emit] using ih _
        · rw [segmentLoop_cons_miss _ _ _ _ _ _ _ _ _ hn hit _ rfl, targetReached_zero]
          simpa [LoopResult.emit] using ih _

theorem pollLoop_zero_reaches_closed (lib : NetURL) (playlistUrl : lib.URL)
    (useLocalTime : Bool) (now : Nat → Int) (mpl : MediaPlaylist) (rest : List Fetch)
    (hclosed : mpl.Closed = true) (hmpl : NoFatal lib playlistUrl mpl.Segments)
    (pre : List Fetch) :
    ∀ st : State,
      (∀ f ∈ pre, ∃ m, f = .media m ∧ m.Closed = false ∧ NoFatal lib playlistUrl m.Segments) →
      ∃ body, pollLoop lib playlistUrl 0 useLocalTime now st (pre ++ .media mpl :: rest) =
          ⟨body ++ [.close], .returnedClosed⟩ ∧
        Event.close ∉ body ∧ body.count .request = pre.length + 1 := by
  induction pre with
  | nil =>
    intro st _
    obtain ⟨_, h2, h3, h4⟩ := segmentLoop_zero lib playlistUrl useLocalTime now mpl.Segments st
    refine ⟨.request :: (segmentLoop lib playlistUrl 0 useLocalTime now st mpl.Segments).events,
      ?_, by simp [h4], ?_⟩
    · simp [pollLoop, h2.2 hmpl, hclosed]
    · simp [List.count_cons, List.count_eq_zero.2 h3]
  | cons f pre ih =>
    intro st hpre
    obtain ⟨m, rfl, hopen, hnf⟩ := hpre f (by simp)
    obtain ⟨_, h2, h3, h4⟩ := segmentLoop_zero lib playlistUrl useLocalTime now m.Segments st
    obtain ⟨body, e, hb, hc⟩ := ih
      (segmentLoop lib playlistUrl 0 useLocalTime now st m.Segments).st
      (fun g hg => hpre g (List.mem_cons_of_mem _ hg))
    refine ⟨.request :: ((segmentLoop lib playlistUrl 0 useLocalTime now st m.Segments).events
      ++ [.sleep m.TargetDurationNs]) ++ body, ?_, ?_, ?_⟩
    · simp [pollLoop, h2.2 hnf, hopen, e, Run.emit]
    · simp [h4, hb]
    · simp [List.count_cons, List.count_append, List.count_eq_zero.2 h3, hc]

theorem pollLoop_zero_outcome (lib : NetURL) (playlistUrl : lib.URL)
    (useLocalTime : Bool) (now : Nat → Int) (polls : List Fetch) :
    ∀ st : State,
      (pollLoop lib playlistUrl 0 useLocalTime now st polls).outcome ≠ .returnedTarget ∧
      ((pollLoop lib playlistUrl 0 useLocalTime now st polls).outcome = .returnedClosed →
        ∃ pre mpl rest, polls = pre ++ .media mpl :: rest ∧ mpl.Closed = true ∧
          NoFatal lib playlistUrl mpl.Segments ∧
          ∀ f ∈ pre, ∃ m, f = .media m ∧ m.Closed = false ∧
            NoFatal lib playlistUrl m.Segments) ∧
      ((pollLoop lib playlistUrl 0 useLocalTime now st polls).outcome ≠ .returnedClosed →
        Event.close ∉ (pollLoop lib playlistUrl 0 useLocalTime now st polls).events) := by
  induction polls with
  | nil => intro st; simp [pollLoop]
  | cons f fs ih =>
    intro st
    cases f with
    | transportError => simp [pollLoop]
    | decodeError => simp [pollLoop]
    | master => simp [pollLoop]
    | media m =>
      obtain ⟨h1, h2, h3, h4⟩ := segmentLoop_zero lib playlistUrl useLocalTime now m.Segments st
      simp only [pollLoop]
      cases hx : (segmentLoop lib playlistUrl 0 useLocalTime now st m.Segments).exit with
      | target => exact absurd hx h1
      | fatal => simp [h4]
      | finished =>
        have hnf := h2.1 hx
        by_cases hcl : m.Closed = true
        · simp only [hcl, if_true]
          refine ⟨by simp, fun _ => ⟨[], m, fs, rfl, hcl, hnf, by simp⟩, fun h => by simp at h⟩
        · simp only [hcl]
          obtain ⟨i1, i2, i3⟩ := ih
            (segmentLoop lib playlistUrl 0 useLocalTime now st m.Segments).st
          refine ⟨by simpa [Run.emit] using i1, fun h => ?_, fun h => ?_⟩
          · obtain ⟨pre, mpl, rest, e, c1, c2, c3⟩ := i2 (by simpa [Run.emit] using h)
            refine ⟨.media m :: pre, mpl, rest, by simp [e], c1, c2, ?_⟩
            intro g hg
            rcases List.mem_cons.1 hg with rfl | hg
            · exact ⟨m, rfl, by simpa using hcl, hnf⟩
            · exact c3 g hg
          · have := i3 (by simpa [Run.emit] using h)
            simp [Run.emit, h4, this]

theorem Cache.mem_touch {c : Cache} {k x : String} (h : x ∈ (c.touch k).ll) :
    x = k ∨ x ∈ c.ll := by
  by_cases hk : k ∈ c.ll
  · rw [c.touch_of_mem k hk] at h
    rcases List.mem_cons.1 h with h | h
    · exact Or.inl h
    · exact Or.inr (List.mem_of_mem_erase h)
  · rw [c.touch_of_not_mem k hk] at h
    split_ifs at h
    · exact List.mem_cons.1 ((List.dropLast_sublist _).subset h)
    · exact List.mem_cons.1 h

/-- A key that is looked up is in the cache already or misses at some lookup. -/
theorem Cache.Consistent.seen_or_missed (L : List (String × Bool)) :
    ∀ c : Cache, c.Consistent L → ∀ u ∈ L.map Prod.fst,
      u ∈ c.ll ∨ u ∈ (L.filter fun p => !p.2).map Prod.fst := by
  induction L with
  | nil => intro c _ u hu; simp at hu
  | cons x L ih =>
    intro c hc u hu
    obtain ⟨k, b⟩ := x
    simp only [Cache.Consistent] at hc
    have hk : k ∈ c.ll ∨ k ∈ (((k, b) :: L).filter fun p => !p.2).map Prod.fst := by
      by_cases hin : k ∈ c.ll
      · exact Or.inl hin
      · right
        have : b = false := by simpa [hin] using hc.1
        subst this
        simp [List.filter]
    simp only [List.map_cons, List.mem_cons] at hu
    rcases hu with rfl | hu
    · exact hk
    · rcases ih _ hc.2 u hu with h | h
      · rcases Cache.mem_touch h with rfl | h
        · exact hk
        · exact Or.inl h
      · right
        cases b <;> simp [List.filter] at h ⊢
        · exact Or.inr h
        · exact h

theorem lookups_emit_loop (evs : List Event) (r : LoopResult) :
    lookups (r.emit evs).events = lookups evs ++ lookups r.events := by
  simp [LoopResult.emit, lookups_append]

/-- With target 0 the segment loop sends exactly the newly seen segments of the playlist, in
order, and leaves the cache that looking up its resolvable segments produces. -/
theorem segmentLoop_zero_newlySeen (lib : NetURL) (playlistUrl : lib.URL)
    (useLocalTime : Bool) (now : Nat → Int) (segs : List (Option MediaSegment)) :
    ∀ st : State,
      (sent (segmentLoop lib playlistUrl 0 useLocalTime now st segs).events).map Download.URI =
        (newlySeen lib playlistUrl st.cache segs).map Prod.fst ∧
      (segmentLoop lib playlistUrl 0 useLocalTime now st segs).st.cache =
        cacheAfter lib playlistUrl st.cache segs := by
  induction segs with
  | nil => intro st; simp [segmentLoop, sent, newlySeen, cacheAfter]
  | cons seg vs ih =>
    intro st
    cases seg with
    | none => simpa [segmentLoop, newlySeen, cacheAfter] using ih st
    | some v =>
      cases hn : normalize lib playlistUrl v.URI with
      | fatal =>
        rw [segmentLoop_cons_fatal _ _ _ _ _ _ _ _ hn]
        simp [sent, newlySeen, cacheAfter, hn]
      | skip =>
        rw [segmentLoop_cons_skip _ _ _ _ _ _ _ _ hn, sent_emit_loop]
        simpa [sent, newlySeen, cacheAfter, hn, LoopResult.emit] using ih st
      | ok u =>
        by_cases hit : u ∈ st.cache.ll
        · rw [segmentLoop_cons_hit _ _ _ _ _ _ _ _ _ hn hit, targetReached_zero]
          simp only [Bool.false_eq_true, if_false, sent_emit_loop]
          have := ih { st with cache := ⟨st.cache.MaxEntries, u :: st.cache.ll.erase u⟩ }
          simpa [sent, newlySeen, cacheAfter, hn, hit, LoopResult.emit,
            st.cache.touch_eq_of_mem u hit] using this
        · rw [segmentLoop_cons_miss _ _ _ _ _ _ _ _ _ hn hit _ rfl, targetReached_zero]
          simp only [Bool.false_eq_true, if_false, sent_emit_loop]
          have := ih ⟨st.cache.Add u,
            (if useLocalTime then now st.ticks else wrapInt64 (st.recDuration + v.DurationNs)),
            (if useLocalTime then st.ticks + 1 else st.ticks)⟩
          simpa [sent, newlySeen, cacheAfter, hn, hit, LoopResult.emit,
            st.cache.touch_eq_of_not_mem u hit] using this

/-- With target 0 and no fatal segment, the segment loop looks up the normalized URI of every
resolvable segment of the playlist, in order. -/
theorem segmentLoop_zero_lookups (lib : NetURL) (playlistUrl : lib.URL)
    (useLocalTime : Bool) (now : Nat → Int) (segs : List (Option MediaSegment)) :
    ∀ st : State, NoFatal lib playlistUrl segs →
      (lookups (segmentLoop lib playlistUrl 0 useLocalTime now st segs).events).map Prod.fst =
        resolvedURIs lib playlistUrl segs := by
  induction segs with
  | nil => intro st _; simp [segmentLoop, lookups, resolvedURIs]
  | cons seg vs ih =>
    intro st hnf
    cases seg with
    | none => simpa [segmentLoop, resolvedURIs] using ih st hnf.tail
    | some v =>
      cases hn : normalize lib playlistUrl v.URI with
      | fatal => exact absurd hn (hnf v (by simp))
      | skip =>
        rw [segmentLoop_cons_skip _ _ _ _ _ _ _ _ hn, lookups_emit_loop]
        simpa [lookups, resolvedURIs, hn, Norm.uri?] using ih st hnf.tail
      | ok u =>
        by_cases hit : u ∈ st.cache.ll
        · rw [segmentLoop_cons_hit _ _ _ _ _ _ _ _ _ hn hit, targetReached_zero]
          simp only [Bool.false_eq_true, if_false, lookups_emit_loop]
          have := ih { st with cache := ⟨st.cache.MaxEntries, u :: st.cache.ll.erase u⟩ }
            hnf.tail
          simpa [lookups, resolvedURIs, hn, Norm.uri?] using this
        · rw [segmentLoop_cons_miss _ _ _ _ _ _ _ _ _ hn hit _ rfl, targetReached_zero]
          simp only [Bool.false_eq_true, if_false, lookups_emit_loop]
          have := ih ⟨st.cache.Add u,
            (if useLocalTime then now st.ticks else wrapInt64 (st.recDuration + v.DurationNs)),
            (if useLocalTime then st.ticks + 1 else st.ticks)⟩ hnf.tail
          simpa [lookups, resolvedURIs, hn, Norm.uri?] using this

theorem pollLoop_zero_newlySeen (lib : NetURL) (playlistUrl : lib.URL)
    (useLocalTime : Bool) (now : Nat → Int) (mpl : MediaPlaylist) (rest : List Fetch)
    (hclosed : mpl.Closed = true) (hmpl : NoFatal lib playlistUrl mpl.Segments)
    (pre : List Fetch) :
    ∀ st : State,
      (∀ f ∈ pre, ∃ m, f = .media m ∧ m.Closed = false ∧ NoFatal lib playlistUrl m.Segments) →
      (sent (pollLoop lib playlistUrl 0 useLocalTime now st
          (pre ++ .media mpl :: rest)).events).map Download.URI =
        (newlySeenPolls lib playlistUrl st.cache
          (mediaPlaylists (pre ++ [.media mpl]))).map Prod.fst ∧
      ∀ m ∈ mediaPlaylists (pre ++ [.media mpl]),
        ∀ u ∈ resolvedURIs lib playlistUrl m.Segments,
          u ∈ (lookups (pollLoop lib playlistUrl 0 useLocalTime now st
            (pre ++ .media mpl :: rest)).events).map Prod.fst := by
  induction pre with
  | nil =>
    intro st _
    obtain ⟨_, h2, _, _⟩ := segmentLoop_zero lib playlistUrl useLocalTime now mpl.Segments st
    obtain ⟨n1, _⟩ := segmentLoop_zero_newlySeen lib playlistUrl useLocalTime now
      mpl.Segments st
    have hl := segmentLoop_zero_lookups lib playlistUrl useLocalTime now mpl.Segments st hmpl
    have hrun : pollLoop lib playlistUrl 0 useLocalTime now st (.media mpl :: rest) =
        ⟨.request :: ((segmentLoop lib playlistUrl 0 useLocalTime now st mpl.Segments).events
          ++ [.close]), .returnedClosed⟩ := by
      simp [pollLoop, h2.2 hmpl, hclosed]
    simp only [List.nil_append, hrun, mediaPlaylists, newlySeenPolls, List.append_nil,
      List.mem_singleton, forall_eq]
    refine ⟨by simpa [sent, sent_append] using n1, fun u hu => ?_⟩
    simpa [lookups, lookups_append, hl] using hu
  | cons f pre ih =>
    intro st hpre
    obtain ⟨m, rfl, hopen, hnf⟩ := hpre f (by simp)
    obtain ⟨_, h2, _, _⟩ := segmentLoop_zero lib playlistUrl useLocalTime now m.Segments st
    obtain ⟨n1, n2⟩ := segmentLoop_zero_newlySeen lib playlistUrl useLocalTime now
      m.Segments st
    have hl := segmentLoop_zero_lookups lib playlistUrl useLocalTime now m.Segments st hnf
    obtain ⟨i1, i2⟩ := ih (segmentLoop lib playlistUrl 0 useLocalTime now st m.Segments).st
      (fun g hg => hpre g (List.mem_cons_of_mem _ hg))
    have hrun : pollLoop lib playlistUrl 0 useLocalTime now st
        (.media m :: (pre ++ .media mpl :: rest)) =
        (pollLoop lib playlistUrl 0 useLocalTime now
          (segmentLoop lib playlistUrl 0 useLocalTime now st m.Segments).st
          (pre ++ .media mpl :: rest)).emit
          (.request :: ((segmentLoop lib playlistUrl 0 useLocalTime now st m.Segments).events
            ++ [.sleep m.TargetDurationNs])) := by
      simp [pollLoop, h2.2 hnf, hopen]
    rw [n2] at i1
    have hev : (pollLoop lib playlistUrl 0 useLocalTime now st
        (.media m :: (pre ++ .media mpl :: rest))).events =
        [.request] ++ (segmentLoop lib playlistUrl 0 useLocalTime now st m.Segments).events ++
          [.sleep m.TargetDurationNs] ++
          (pollLoop lib playlistUrl 0 useLocalTime now
            (segmentLoop lib playlistUrl 0 useLocalTime now st m.Segments).st
            (pre ++ .media mpl :: rest)).events := by
      rw [hrun]; simp [Run.emit]
    have hs : sent (pollLoop lib playlistUrl 0 useLocalTime now st
        (.media m :: (pre ++ .media mpl :: rest))).events =
        sent (segmentLoop lib playlistUrl 0 useLocalTime now st m.Segments).events ++
          sent (pollLoop lib playlistUrl 0 useLocalTime now
            (segmentLoop lib playlistUrl 0 useLocalTime now st m.Segments).st
            (pre ++ .media mpl :: rest)).events := by
      rw [hev]; simp [sent_append, sent]
    have hlk : lookups (pollLoop lib playlistUrl 0 useLocalTime now st
        (.media m :: (pre ++ .media mpl :: rest))).events =
        lookups (segmentLoop lib playlistUrl 0 useLocalTime now st m.Segments).events ++
          lookups (pollLoop lib playlistUrl 0 useLocalTime now
            (segmentLoop lib playlistUrl 0 useLocalTime now st m.Segments).st
            (pre ++ .media mpl :: rest)).events := by
      rw [hev]; simp [lookups_append, lookups]
    have hmp : mediaPlaylists (.media m :: (pre ++ [.media mpl])) =
        m :: mediaPlaylists (pre ++ [.media mpl]) := rfl
    have hnp : newlySeenPolls lib playlistUrl st.cache (m :: mediaPlaylists (pre ++ [.media mpl]))
        = newlySeen lib playlistUrl st.cache m.Segments ++
          newlySeenPolls lib playlistUrl (cacheAfter lib playlistUrl st.cache m.Segments)
            (mediaPlaylists (pre ++ [.media mpl])) := rfl
    rw [List.cons_append, List.cons_append, hmp, hs, hlk, hnp]
    refine ⟨by rw [List.map_append, List.map_append, n1, i1], fun m2 hm2 u hu => ?_⟩
    rw [List.map_append]
    rcases List.mem_cons.1 hm2 with rfl | hm2
    · exact List.mem_append.2 (Or.inl (by rw [hl]; exact hu))
    · exact List.mem_append.2 (Or.inr (i2 m2 hm2 u hu))

/-- With target 0, a run through open media playlists without a fatal segment has sent
their newly seen segments, in order, before anything that later polls make it send. -/
theorem pollLoop_zero_open_polls (lib : NetURL) (playlistUrl : lib.URL)
    (useLocalTime : Bool) (now : Nat → Int) (rest : List Fetch) (pre : List Fetch) :
    ∀ st : State,
      (∀ f ∈ pre, ∃ m, f = .media m ∧ m.Closed = false ∧ NoFatal lib playlistUrl m.Segments) →
      ∃ tail, (sent (pollLoop lib playlistUrl 0 useLocalTime now st
          (pre ++ rest)).events).map Download.URI =
        (newlySeenPolls lib playlistUrl st.cache (mediaPlaylists pre)).map Prod.fst ++ tail := by
  induction pre with
  | nil =>
    intro st _
    exact ⟨(sent (pollLoop lib playlistUrl 0 useLocalTime now st rest).events).map Download.URI,
      by simp [mediaPlaylists, newlySeenPolls]⟩
  | cons f pre ih =>
    intro st hpre
    obtain ⟨m, rfl, hopen, hnf⟩ := hpre f (by simp)
    obtain ⟨_, h2, _, _⟩ := segmentLoop_zero lib playlistUrl useLocalTime now m.Segments st
    obtain ⟨n1, n2⟩ := segmentLoop_zero_newlySeen lib playlistUrl useLocalTime now
      m.Segments st
    obtain ⟨tail, i1⟩ := ih (segmentLoop lib playlistUrl 0 useLocalTime now st m.Segments).st
      (fun g hg => hpre g (List.mem_cons_of_mem _ hg))
    have hev : (pollLoop lib playlistUrl 0 useLocalTime now st
        (.media m :: (pre ++ rest))).events =
        [.request] ++ (segmentLoop lib playlistUrl 0 useLocalTime now st m.Segments).events ++
          [.sleep m.TargetDurationNs] ++
          (pollLoop lib playlistUrl 0 useLocalTime now
            (segmentLoop lib playlistUrl 0 useLocalTime now st m.Segments).st
            (pre ++ rest)).events := by
      simp [pollLoop, h2.2 hnf, hopen, Run.emit]
    have hs : sent (pollLoop lib playlistUrl 0 useLocalTime now st
        (.media m :: (pre ++ rest))).events =
        sent (segmentLoop lib playlistUrl 0 useLocalTime now st m.Segments).events ++
          sent (pollLoop lib playlistUrl 0 useLocalTime now
            (segmentLoop lib playlistUrl 0 useLocalTime now st m.Segments).st
            (pre ++ rest)).events := by
      rw [hev]; simp [sent_append, sent]
    have hmp : mediaPlaylists (.media m :: pre) = m :: mediaPlaylists pre := rfl
    have hnp : newlySeenPolls lib playlistUrl st.cache (m :: mediaPlaylists pre)
        = newlySeen lib playlistUrl st.cache m.Segments ++
          newlySeenPolls lib playlistUrl (cacheAfter lib playlistUrl st.cache m.Segments)
            (mediaPlaylists pre) := rfl
    rw [n2] at i1
    refine ⟨tail, ?_⟩
    rw [List.cons_append, hmp, hs, hnp, List.map_append, List.map_append, n1, i1,
      List.append_assoc]

/-- C9 (zero target means unbounded). With target 0, under either policy and for every
poll script: the run never returns through the target check. If the script reaches a first
closed playlist after open media playlists, none of them with a fatal segment, the run makes
one request per playlist, closes the channel as its last action after that playlist and
returns; the descriptors it has sent are exactly the newly seen segments of those playlists,
in order, and the normalized URI of every resolvable segment listed in them has been sent.
Conversely a run that returns has done exactly that; a run that does not return never closes
the channel; in every run each cache miss is sent, so every URI looked up has been sent; and
whenever the script starts with open media playlists without a fatal segment, the run sends
their newly seen segments, in order, before anything else. -/
theorem getPlaylist_zero_target_runs_until_closed (lib : NetURL) (now : Nat → Int)
    (urlStr : String) (useLocalTime : Bool) (polls : List Fetch) :
    (getPlaylist lib now urlStr 0 useLocalTime polls).outcome ≠ .returnedTarget ∧
    (∀ playlistUrl pre mpl rest, lib.Parse urlStr = some playlistUrl →
      polls = pre ++ .media mpl :: rest → mpl.Closed = true →
      NoFatal lib playlistUrl mpl.Segments →
      (∀ f ∈ pre, ∃ m, f = .media m ∧ m.Closed = false ∧ NoFatal lib playlistUrl m.Segments) →
      ∃ body, getPlaylist lib now urlStr 0 useLocalTime polls =
          ⟨body ++ [.close], .returnedClosed⟩ ∧
        Event.close ∉ body ∧ body.count .request = pre.length + 1 ∧
        (sent body).map Download.URI =
          (newlySeenPolls lib playlistUrl (Cache.New 1024)
            (mediaPlaylists (pre ++ [.media mpl]))).map Prod.fst ∧
        ∀ m ∈ mediaPlaylists (pre ++ [.media mpl]),
          ∀ u ∈ resolvedURIs lib playlistUrl m.Segments, u ∈ (sent body).map Download.URI) ∧
    ((getPlaylist lib now urlStr 0 useLocalTime polls).outcome = .returnedClosed →
      ∃ playlistUrl pre mpl rest, lib.Parse urlStr = some playlistUrl ∧
        polls = pre ++ .media mpl :: rest ∧ mpl.Closed = true ∧
        NoFatal lib playlistUrl mpl.Segments ∧
        ∀ f ∈ pre, ∃ m, f = .media m ∧ m.Closed = false ∧
          NoFatal lib playlistUrl m.Segments) ∧
    ((getPlaylist lib now urlStr 0 useLocalTime polls).outcome ≠ .returnedClosed →
      Event.close ∉ (getPlaylist lib now urlStr 0 useLocalTime polls).events) ∧
    (sent (getPlaylist lib now urlStr 0 useLocalTime polls).events).map Download.URI =
      misses (getPlaylist lib now urlStr 0 useLocalTime polls).events ∧
    (∀ u ∈ (lookups (getPlaylist lib now urlStr 0 useLocalTime polls).events).map Prod.fst,
      u ∈ (sent (getPlaylist lib now urlStr 0 useLocalTime polls).events).map Download.URI) ∧
    (∀ playlistUrl pre rest, lib.Parse urlStr = some playlistUrl → polls = pre ++ rest →
      (∀ f ∈ pre, ∃ m, f = .media m ∧ m.Closed = false ∧ NoFatal lib playlistUrl m.Segments) →
      ∃ tail, (sent (getPlaylist lib now urlStr 0 useLocalTime polls).events).map Download.URI =
        (newlySeenPolls lib playlistUrl (Cache.New 1024) (mediaPlaylists pre)).map Prod.fst ++
          tail) := by
  obtain ⟨c2, hs, hc⟩ := getPlaylist_traceOK lib now urlStr 0 useLocalTime polls
  have hcov : ∀ u ∈ (lookups (getPlaylist lib now urlStr 0 useLocalTime polls).events).map
      Prod.fst,
      u ∈ (sent (getPlaylist lib now urlStr 0 useLocalTime polls).events).map Download.URI := by
    intro u hu
    have hcons := hc [] trivial
    rw [List.append_nil] at hcons
    rcases Cache.Consistent.seen_or_missed _ _ hcons u hu with h | h
    · simp [Cache.New] at h
    · rw [hs]; exact h
  refine ⟨?_, ?_, ?_, ?_, hs, hcov, ?_⟩
  · unfold getPlaylist
    cases lib.Parse urlStr with
    | none => simp
    | some p => exact (pollLoop_zero_outcome lib p useLocalTime now polls State.init).1
  · intro p pre mpl rest hp hpolls hcl hnf hpre
    have hg : getPlaylist lib now urlStr 0 useLocalTime polls =
        pollLoop lib p 0 useLocalTime now State.init (pre ++ .media mpl :: rest) := by
      unfold getPlaylist
      rw [hp, hpolls]
    obtain ⟨body, e, hb, hcount⟩ := pollLoop_zero_reaches_closed lib p useLocalTime now mpl rest
      hcl hnf pre State.init hpre
    obtain ⟨n1, n2⟩ := pollLoop_zero_newlySeen lib p useLocalTime now mpl rest hcl hnf pre
      State.init hpre
    have hsb : sent (pollLoop lib p 0 useLocalTime now State.init
        (pre ++ .media mpl :: rest)).events = sent body := by
      rw [e]; simp [sent_append, sent]
    refine ⟨body, by rw [hg, e], hb, hcount, ?_, fun m hm u hu => ?_⟩
    · rw [← hsb, n1]; rfl
    · have := hcov u (by rw [hg]; exact n2 m hm u hu)
      rw [hg, hsb] at this
      exact this
  · unfold getPlaylist
    cases hp : lib.Parse urlStr with
    | none => simp
    | some p =>
      intro h
      obtain ⟨pre, mpl, rest, e⟩ :=
        (pollLoop_zero_outcome lib p useLocalTime now polls State.init).2.1 h
      exact ⟨p, pre, mpl, rest, rfl, e⟩
  · unfold getPlaylist
    cases lib.Parse urlStr with
    | none => simp
    | some p => exact (pollLoop_zero_outcome lib p useLocalTime now polls State.init).2.2
  · intro p pre rest hp hpolls hpre
    obtain ⟨tail, h⟩ := pollLoop_zero_open_polls lib p useLocalTime now rest pre State.init hpre
    refine ⟨tail, ?_⟩
    unfold getPlaylist
    rw [hp, hpolls]
    exact h

theorem sinkBytes_append (a b : List DlEvent) : sinkBytes (a ++ b) = sinkBytes a ++ sinkBytes b := by
  induction a with
  | nil => rfl
  | cons e a ih => cases e <;> simp [sinkBytes, ih]

theorem requested_append (a b : List DlEvent) : requested (a ++ b) = requested a ++ requested b := by
  induction a with
  | nil => rfl
  | cons e a ih => cases e <;> simp [requested, ih]

theorem sinkBytes_emit (evs : List DlEvent) (r : DlRun) :
    sinkBytes (r.emit evs).events = sinkBytes evs ++ sinkBytes r.events := by
  simp [DlRun.emit, sinkBytes_append]

theorem requested_emit (evs : List DlEvent) (r : DlRun) :
    requested (r.emit evs).events = requested evs ++ requested r.events := by
  simp [DlRun.emit, requested_append]

/-- C5 (skip on bad status, output order, amended). For every sequence of descriptors
drained by `downloadSegment` whose URIs `http.NewRequest` accepts, and every assignment of
fetch outcomes (transport error, or a response with any status and body) in which each copy
of a 200 body to the sink succeeds: the bytes written to the sink are exactly the
concatenation, in arrival order, of the bodies answered with status 200 (a non-200 response
contributes nothing), a request is made for every descriptor in arrival order, and the loop
ends only when the channel is drained. -/
theorem downloadSegment_writes_bodies_in_order (lib : NetURL) (recTime : Int)
    (items : List (Download × SegFetch))
    (hreq : ∀ it ∈ items, (lib.Parse it.1.URI).isSome = true) (hcopy : ∀ it ∈ items, it.2.CopyOK) :
    sinkBytes (downloadSegment lib recTime items).events = bodies200 items ∧
    requested (downloadSegment lib recTime items).events = items.map (fun it => it.1.URI) ∧
    (downloadSegment lib recTime items).outcome = .drained := by
  induction items with
  | nil => simp [downloadSegment, sinkBytes, requested, bodies200]
  | cons it rest ih =>
    obtain ⟨v, f⟩ := it
    have hp : (lib.Parse v.URI).isSome = true := hreq (v, f) (by simp)
    have hc : f.CopyOK := hcopy (v, f) (by simp)
    obtain ⟨i1, i2, i3⟩ := ih (fun x hx => hreq x (List.mem_cons_of_mem _ hx))
      (fun x hx => hcopy x (List.mem_cons_of_mem _ hx))
    obtain ⟨u, hu⟩ := Option.isSome_iff_exists.1 hp
    cases f with
    | transportError =>
      simp [downloadSegment, hu, DlRun.emit, sinkBytes, requested, bodies200, i1, i2, i3]
    | response resp =>
      by_cases hs : resp.StatusCode = 200
      · have hcf : resp.copyFails = none := hc hs
        simp [downloadSegment, hu, DlRun.emit, sinkBytes, requested, bodies200, i1, i2, i3,
          hs, hcf]
      · simp [downloadSegment, hu, DlRun.emit, sinkBytes, requested, bodies200, i1, i2, i3, hs]

theorem goURL_parse_example :
    goURL.Parse "http://host/path/playlist.m3u8" = some examplePlaylistUrl := by
  show url.Parse "http://host/path/playlist.m3u8".toList = some examplePlaylistUrl
  decide!

/-- C6 (relative-URI resolution, amended). For a segment URI that does not begin with
`http`, whose resolution against the playlist URL and whose unescaping succeed and whose
normalized URI is not in the cache, `getPlaylist` looks up and sends the unescaped form of
the resolved URI. In particular, with Go's `net/url`, playlist URL
`http://host/path/playlist.m3u8` and first segment URI `seg1.ts`, the first descriptor sent
has the URI `http://host/path/seg1.ts`. -/
theorem segmentLoop_resolves_relative_uri :
    (∀ (lib : NetURL) (playlistUrl : lib.URL) (recTime : Int) (useLocalTime : Bool)
      (now : Nat → Int) (st : State) (v : MediaSegment) (vs : List (Option MediaSegment))
      (msUrl : lib.URL) (msURI : String),
      HasPrefix v.URI "http" = false → lib.RefParse playlistUrl v.URI = some msUrl →
      lib.QueryUnescape (lib.Str msUrl) = some msURI → msURI ∉ st.cache.ll →
      ∃ d tail, (segmentLoop lib playlistUrl recTime useLocalTime now st (some v :: vs)).events =
        .cacheGet msURI false :: .send ⟨msURI, d⟩ :: tail) ∧
    (∀ (now : Nat → Int) (recTime : Int) (useLocalTime : Bool) (dur : Int)
      (vs : List (Option MediaSegment)) (closed : Bool) (td : Int) (rest : List Fetch),
      ∃ d tail, (getPlaylist goURL now "http://host/path/playlist.m3u8" recTime useLocalTime
          (.media ⟨some ⟨"seg1.ts", dur⟩ :: vs, closed, td⟩ :: rest)).events =
        .request :: .cacheGet "http://host/path/seg1.ts" false ::
          .send ⟨"http://host/path/seg1.ts", d⟩ :: tail) := by
  have gen : ∀ (lib : NetURL) (playlistUrl : lib.URL) (recTime : Int) (useLocalTime : Bool)
      (now : Nat → Int) (st : State) (v : MediaSegment) (vs : List (Option MediaSegment))
      (msURI : String),
      normalize lib playlistUrl v.URI = .ok msURI → msURI ∉ st.cache.ll →
      ∃ d tail, (segmentLoop lib playlistUrl recTime useLocalTime now st (some v :: vs)).events =
        .cacheGet msURI false :: .send ⟨msURI, d⟩ :: tail := by
    intro lib playlistUrl recTime useLocalTime now st v vs msURI hn hit
    rw [segmentLoop_cons_miss _ _ _ _ _ _ _ _ _ hn hit _ rfl]
    generalize (if useLocalTime then now st.ticks
      else wrapInt64 (st.recDuration + v.DurationNs)) = rd
    by_cases hr : targetReached recTime rd = true
    · simp only [if_pos hr]
      exact ⟨rd, [.close], rfl⟩
    · simp only [if_neg hr]
      exact ⟨rd, _, rfl⟩
  constructor
  · intro lib playlistUrl recTime useLocalTime now st v vs msUrl msURI hrel hres hun hit
    exact gen lib playlistUrl recTime useLocalTime now st v vs msURI
      (by simp [normalize, hrel, hres, hun]) hit
  · intro now recTime useLocalTime dur vs closed td rest
    have hn : normalize goURL examplePlaylistUrl "seg1.ts" = .ok "http://host/path/seg1.ts" := by
      decide!
    obtain ⟨d, tail, e⟩ := gen goURL examplePlaylistUrl recTime useLocalTime now State.init
      ⟨"seg1.ts", dur⟩ vs "http://host/path/seg1.ts" hn (by simp [State.init, Cache.New])
    unfold getPlaylist
    rw [goURL_parse_example]
    simp only [pollLoop]
    cases hx : (segmentLoop goURL examplePlaylistUrl recTime useLocalTime now State.init
      (some ⟨"seg1.ts", dur⟩ :: vs)).exit with
    | fatal => exact ⟨d, tail, by simp [e]⟩
    | target => exact ⟨d, tail, by simp [e]⟩
    | finished =>
      by_cases hcl : closed = true
      · exact ⟨d, tail ++ [.close], by simp [e, hcl]⟩
      · exact ⟨d, tail ++ [.sleep td] ++ (pollLoop goURL examplePlaylistUrl recTime useLocalTime now
          (segmentLoop goURL examplePlaylistUrl recTime useLocalTime now State.init
            (some ⟨"seg1.ts", dur⟩ :: vs)).st rest).events, by simp [e, hcl, Run.emit]⟩

/-- C6 counterexample: the segment URI `httpseg.ts` is not absolute (it has no scheme) and
resolves against the playlist URL to `http://host/path/httpseg.ts`, but it begins with
`http`, so line 117 takes it as it is and the descriptor sent has the URI `httpseg.ts`. -/
theorem relative_uri_with_http_prefix_not_resolved :
    (url.Parse "httpseg.ts".toList).map (fun u => u.Scheme) = some [] ∧
    (goURL.RefParse examplePlaylistUrl "httpseg.ts").map goURL.Str =
      some "http://host/path/httpseg.ts" ∧
    goURL.QueryUnescape "http://host/path/httpseg.ts" = some "http://host/path/httpseg.ts" ∧
    sent (getPlaylist goURL (fun _ => 0) "http://host/path/playlist.m3u8" 0 false
      [.media ⟨[some ⟨"httpseg.ts", 10000000000⟩], true, 10000000000⟩]).events =
      [⟨"httpseg.ts", 10000000000⟩] := by decide!

/-- C7 (code evaluated at the failing input). When the playlist request of an iteration
returns a transport error, `getPlaylist` logs it and sleeps 3 seconds, and then line 107
dereferences the nil response: the run ends in a panic, whatever the later polls would have
returned. There is no next fetch attempt. -/
theorem getPlaylist_transport_error_nil_dereference (now : Nat → Int) (recTime : Int)
    (useLocalTime : Bool) (rest : List Fetch) :
    getPlaylist goURL now "http://host/path/playlist.m3u8" recTime useLocalTime
        (.transportError :: rest) =
      ⟨[.request, .logPrint, .sleep 3000000000], .nilDeref⟩ := by
  unfold getPlaylist
  rw [goURL_parse_example]
  rfl

/-- C8 (resolution failures are non-fatal, amended). A segment whose URI does not begin
with `http` and cannot be resolved against the playlist URL is logged and skipped: the loop
continues with the remaining segments from the same state (cache and recorded duration
unchanged) and its trace is that of the remaining segments after one `log.Print`. A segment
whose URI (when it begins with `http`) or whose resolved URL (otherwise) cannot be unescaped
ends the loop in `log.Fatal`: nothing is sent for it and no later segment is processed. -/
theorem segmentLoop_skips_unresolvable_segment (lib : NetURL) (playlistUrl : lib.URL)
    (recTime : Int) (useLocalTime : Bool) (now : Nat → Int) (st : State) (v : MediaSegment)
    (vs : List (Option MediaSegment)) :
    (HasPrefix v.URI "http" = false → lib.RefParse playlistUrl v.URI = none →
      segmentLoop lib playlistUrl recTime useLocalTime now st (some v :: vs) =
        (segmentLoop lib playlistUrl recTime useLocalTime now st vs).emit [.logPrint]) ∧
    (HasPrefix v.URI "http" = true → lib.QueryUnescape v.URI = none →
      segmentLoop lib playlistUrl recTime useLocalTime now st (some v :: vs) =
        ⟨st, [], .fatal⟩) ∧
    (∀ msUrl, HasPrefix v.URI "http" = false → lib.RefParse playlistUrl v.URI = some msUrl →
      lib.QueryUnescape (lib.Str msUrl) = none →
      segmentLoop lib playlistUrl recTime useLocalTime now st (some v :: vs) =
        ⟨st, [], .fatal⟩) := by
  refine ⟨fun hrel hres => ?_, fun habs hun => ?_, fun msUrl hrel hres hun => ?_⟩
  · exact segmentLoop_cons_skip lib playlistUrl recTime useLocalTime now st v vs
      (by simp [normalize, hrel, hres])
  · exact segmentLoop_cons_fatal lib playlistUrl recTime useLocalTime now st v vs
      (by simp [normalize, habs, hun])
  · exact segmentLoop_cons_fatal lib playlistUrl recTime useLocalTime now st v vs
      (by simp [normalize, hrel, hres, hun])

/-- C8 witness: the segment URI `:seg` is rejected by `url.Parse` and skipped. -/
theorem segmentLoop_skips_unresolvable_segment_witness :
    segmentLoop goURL examplePlaylistUrl 0 false (fun _ => 0) State.init
        [some ⟨":seg", 10000000000⟩, some ⟨"seg2.ts", 10000000000⟩] =
      (segmentLoop goURL examplePlaylistUrl 0 false (fun _ => 0) State.init
        [some ⟨"seg2.ts", 10000000000⟩]).emit [.logPrint] :=
  (segmentLoop_skips_unresolvable_segment goURL examplePlaylistUrl 0 false (fun _ => 0)
    State.init ⟨":seg", 10000000000⟩ [some ⟨"seg2.ts", 10000000000⟩]).1 (by decide!)
    (by show url.URL.Parse examplePlaylistUrl ":seg".toList = none; decide!)

/-- C8 counterexample: the segment URI `http://host/path/%zz.ts` cannot be unescaped;
`getPlaylist` exits in `log.Fatal` at line 120 and the next segment of the playlist is never
processed. -/
theorem unescape_failure_is_fatal :
    normalize goURL examplePlaylistUrl "http://host/path/%zz.ts" = .fatal ∧
    getPlaylist goURL (fun _ => 0) "http://host/path/playlist.m3u8" 0 false
      [.media ⟨[some ⟨"http://host/path/%zz.ts", 10000000000⟩,
                some ⟨"seg2.ts", 10000000000⟩], true, 10000000000⟩] =
      ⟨[.request], .fatal⟩ := by decide!

/-! ## Witnesses and counterexamples -/

theorem exampleLivePolls_lookups :
    lookups (getPlaylist goURL (fun _ => 0) "http://host/path/playlist.m3u8" 0 false
      exampleLivePolls).events =
      [("http://host/path/a.ts", false), ("http://host/path/b.ts", false),
       ("http://host/path/a.ts", true), ("http://host/path/b.ts", true),
       ("http://host/path/c.ts", false)] := by decide!

/-- C1 witness: two polls of a sliding live playlist (`a b`, then `a b c`); the second poll
hits the cache for `a` and `b`, and `a` is sent once. -/
theorem getPlaylist_dedup_within_window_witness :
    lookups (getPlaylist goURL (fun _ => 0) "http://host/path/playlist.m3u8" 0 false
      exampleLivePolls).events =
      [("http://host/path/a.ts", false), ("http://host/path/b.ts", false),
       ("http://host/path/a.ts", true), ("http://host/path/b.ts", true),
       ("http://host/path/c.ts", false)] ∧
    ((sent (getPlaylist goURL (fun _ => 0) "http://host/path/playlist.m3u8" 0 false
      exampleLivePolls).events).map Download.URI).count "http://host/path/a.ts" ≤ 1 :=
  ⟨exampleLivePolls_lookups,
    (getPlaylist_dedup_within_window goURL (fun _ => 0) "http://host/path/playlist.m3u8" 0 false
      exampleLivePolls "http://host/path/a.ts" (by
        intro pre mid post h _
        have hl := congrArg List.length h
        rw [exampleLivePolls_lookups] at hl
        simp at hl
        have := (List.dedup_sublist mid).length_le
        omega)).2⟩

/-- C2 witness: second poll of a live playlist, `a.ts` (5 s) already sent, target 10 s.
The playlist lists `a.ts` again, a nil entry, `b.ts` (3 s) twice, an unresolvable URI and
`c.ts` (2 s); the channel is closed at `c.ts` and `d.ts` is never looked at. -/
theorem pollLoop_closes_on_target_witness :
    (pollLoop goURL examplePlaylistUrl 10000000000 false (fun _ => 0) exampleSecondPollState
      [.media ⟨exampleMixedSegments ++ [some ⟨"d.ts", 5000000000⟩], false, 5000000000⟩,
       .transportError]).outcome = .returnedTarget ∧
    pollLoop goURL examplePlaylistUrl 10000000000 false (fun _ => 0) exampleSecondPollState
      [.media ⟨exampleMixedSegments ++ [some ⟨"d.ts", 5000000000⟩], false, 5000000000⟩,
       .transportError] =
    ⟨[.request, .cacheGet "http://host/path/a.ts" true,
      .cacheGet "http://host/path/b.ts" false, .send ⟨"http://host/path/b.ts", 8000000000⟩,
      .cacheGet "http://host/path/b.ts" true, .logPrint,
      .cacheGet "http://host/path/c.ts" false, .send ⟨"http://host/path/c.ts", 10000000000⟩,
      .close], .returnedTarget⟩ :=
  ⟨(pollLoop_closes_on_target goURL examplePlaylistUrl 10000000000 (fun _ => 0)
    exampleSecondPollState exampleMixedSegments [some ⟨"d.ts", 5000000000⟩] false 5000000000
    [.transportError] (by decide)
    (by
      intro v hv
      simp [exampleMixedSegments] at hv
      rcases hv with rfl | rfl | rfl | rfl <;> decide!)
    (by decide!) (by decide) (by decide) (by decide!) (by decide!)).2.1, by decide!⟩

/-- C2 counterexample: target 10 s and a playlist listing the URI `a.ts` twice with 5 s
each. The nominal durations sum to the target, but the second entry is a cache hit, so the
recorded duration stays at 5 s: the channel is not closed and the loop goes on to sleep and
poll again. The last conjunct runs the model on the values that line 139 computes for two
fresh segments of nominal duration 1.001 s (the float64 product truncates to 1000999999 ns,
a fact of float64 arithmetic that is outside this embedding) with target 2.002 s: the
recorded duration ends at 2001999998 ns and the channel is not closed either. -/
theorem repeated_uri_does_not_reach_target :
    (segmentDurations [some ⟨"a.ts", 5000000000⟩, some ⟨"a.ts", 5000000000⟩]).sum ≥
      10000000000 ∧
    getPlaylist goURL (fun _ => 0) "http://host/path/playlist.m3u8" 10000000000 false
      [.media ⟨[some ⟨"a.ts", 5000000000⟩, some ⟨"a.ts", 5000000000⟩], false, 5000000000⟩] =
      ⟨[.request, .cacheGet "http://host/path/a.ts" false,
        .send ⟨"http://host/path/a.ts", 5000000000⟩,
        .cacheGet "http://host/path/a.ts" true, .sleep 5000000000], .polling⟩ ∧
    getPlaylist goURL (fun _ => 0) "http://host/path/playlist.m3u8" 2002000000 false
      [.media ⟨[some ⟨"a.ts", 1000999999⟩, some ⟨"b.ts", 1000999999⟩], false, 2000000000⟩] =
      ⟨[.request, .cacheGet "http://host/path/a.ts" false,
        .send ⟨"http://host/path/a.ts", 1000999999⟩,
        .cacheGet "http://host/path/b.ts" false,
        .send ⟨"http://host/path/b.ts", 2001999998⟩, .sleep 2000000000], .polling⟩ := by
  decide!

/-- C3 witness: a closed playlist with the segments `a`, nil, `:bad`, `b`; the run returns
after it although a second playlist is scripted. -/
theorem pollLoop_closed_playlist_sends_fresh_segments_witness :
    (pollLoop goURL examplePlaylistUrl 0 false (fun _ => 0) State.init
      [.media exampleVodPlaylist, .media exampleVodPlaylist]).outcome = .returnedClosed := by
  obtain ⟨body, e, _⟩ := pollLoop_closed_playlist_sends_fresh_segments goURL examplePlaylistUrl
    false (fun _ => 0) State.init exampleVodPlaylist [.media exampleVodPlaylist] rfl
    (by
      intro v hv
      simp [exampleVodPlaylist] at hv
      rcases hv with rfl | rfl | rfl <;> decide!)
    (by decide!) (by decide!)
  rw [e]

/-- C3 counterexample: a closed playlist lists two segments, both with the resolvable URI
`a.ts`, with target 0. Only one `Download` is sent: the second entry is a cache hit. -/
theorem closed_playlist_with_repeated_uri_sends_once :
    listed [some ⟨"a.ts", 5000000000⟩, some ⟨"a.ts", 5000000000⟩] = 2 ∧
    unresolved goURL examplePlaylistUrl
      [some ⟨"a.ts", 5000000000⟩, some ⟨"a.ts", 5000000000⟩] = 0 ∧
    getPlaylist goURL (fun _ => 0) "http://host/path/playlist.m3u8" 0 false
      [.media ⟨[some ⟨"a.ts", 5000000000⟩, some ⟨"a.ts", 5000000000⟩], true, 5000000000⟩] =
      ⟨[.request, .cacheGet "http://host/path/a.ts" false,
        .send ⟨"http://host/path/a.ts", 5000000000⟩,
        .cacheGet "http://host/path/a.ts" true, .close], .returnedClosed⟩ := by decide!

/-- C4 witness: the metadata policy on two polls with 5 s segments. -/
theorem getPlaylist_totalDuration_nondecreasing_witness :
    (totals (getPlaylist goURL (fun _ => 0) "http://host/path/playlist.m3u8" 0 false
      exampleLivePolls).events).Pairwise (· ≤ ·) :=
  getPlaylist_totalDuration_nondecreasing goURL (fun _ => 0) "http://host/path/playlist.m3u8" 0
    false exampleLivePolls (by
      show (∀ d ∈ pollDurations exampleLivePolls, 0 ≤ d) ∧
        (pollDurations exampleLivePolls).sum < 2 ^ 63
      decide!)

/-- C4 counterexample: under the metadata policy a playlist with the durations 5 s and
-3 s makes `getPlaylist` send the totals 5 s and then 2 s. -/
theorem negative_segment_duration_decreases_totalDuration :
    totals (getPlaylist goURL (fun _ => 0) "http://host/path/playlist.m3u8" 0 false
      [.media ⟨[some ⟨"a.ts", 5000000000⟩, some ⟨"b.ts", -3000000000⟩], true, 5000000000⟩]).events
      = [5000000000, 2000000000] ∧
    ¬ (totals (getPlaylist goURL (fun _ => 0) "http://host/path/playlist.m3u8" 0 false
      [.media ⟨[some ⟨"a.ts", 5000000000⟩, some ⟨"b.ts", -3000000000⟩], true,
        5000000000⟩]).events).Pairwise (· ≤ ·) := by decide!

/-- C5 witness: responses 200, 404, transport error, 200; all four URIs are requested and
the sink receives the two 200 bodies. -/
theorem downloadSegment_writes_bodies_in_order_witness :
    downloadSegment goURL 20000000000 exampleItems =
      ⟨[.get "http://host/path/a.ts", .write [1, 2], .logDownloaded "http://host/path/a.ts",
        .logRecorded 5000000000 (some 20000000000),
        .get "http://host/path/b.ts", .logStatus 404 "http://host/path/b.ts",
        .get "http://host/path/c.ts", .logPrint,
        .get "http://host/path/d.ts", .write [3], .logDownloaded "http://host/path/d.ts",
        .logRecorded 20000000000 (some 20000000000)], .drained⟩ ∧
    sinkBytes (downloadSegment goURL 20000000000 exampleItems).events = [1, 2, 3] :=
  ⟨by decide!,
    (downloadSegment_writes_bodies_in_order goURL 20000000000 exampleItems
      (by
        intro it hit
        simp only [exampleItems, List.mem_cons, List.mem_singleton, List.mem_nil_iff,
          or_false] at hit
        rcases hit with rfl | rfl | rfl | rfl <;> decide!)
      (by
        intro it hit
        simp only [exampleItems, List.mem_cons, List.mem_singleton, List.mem_nil_iff,
          or_false] at hit
        rcases hit with rfl | rfl | rfl | rfl <;> simp [SegFetch.CopyOK])).1⟩

/-- C5 counterexample: (1) a 200 response with body `1 2` whose copy to the sink fails
after one byte: line 77 ends the process, the sink holds `1` and the next descriptor, whose
200 body is `3`, is never requested. (2) `getPlaylist` sends the descriptor
`http://host/path/100%.ts` for the segment URI `100%25.ts`; `http.NewRequest` rejects that
URI, so after the 404 of the first descriptor the loop ends the process at line 63 and the
third descriptor is never requested. -/
theorem downloadSegment_fatal_on_copy_failure_and_bad_uri :
    downloadSegment goURL 0
      [(⟨"http://host/path/a.ts", 5000000000⟩, .response ⟨200, [1, 2], some 1⟩),
       (⟨"http://host/path/b.ts", 10000000000⟩, .response ⟨200, [3], none⟩)] =
      ⟨[.get "http://host/path/a.ts", .write [1]], .fatal⟩ ∧
    bodies200
      [(⟨"http://host/path/a.ts", 5000000000⟩, .response ⟨200, [1, 2], some 1⟩),
       (⟨"http://host/path/b.ts", 10000000000⟩, .response ⟨200, [3], none⟩)] = [1, 2, 3] ∧
    sent (getPlaylist goURL (fun _ => 0) "http://host/path/playlist.m3u8" 0 false
      [.media ⟨[some ⟨"a.ts", 5000000000⟩, some ⟨"100%25.ts", 5000000000⟩,
                some ⟨"c.ts", 5000000000⟩], true, 5000000000⟩]).events =
      [⟨"http://host/path/a.ts", 5000000000⟩, ⟨"http://host/path/100%.ts", 10000000000⟩,
       ⟨"http://host/path/c.ts", 15000000000⟩] ∧
    downloadSegment goURL 0
      [(⟨"http://host/path/a.ts", 5000000000⟩, .response ⟨404, [9], none⟩),
       (⟨"http://host/path/100%.ts", 10000000000⟩, .response ⟨200, [1, 2], none⟩),
       (⟨"http://host/path/c.ts", 15000000000⟩, .response ⟨200, [3], none⟩)] =
      ⟨[.get "http://host/path/a.ts", .logStatus 404 "http://host/path/a.ts"], .fatal⟩ := by
  decide!

/-- C6 witness: the reference `../hi/seg%201.ts?x=a+b` resolves and unescapes to
`http://host/hi/seg 1.ts?x=a b`. -/
theorem segmentLoop_resolves_relative_uri_witness :
    ∃ d tail, (segmentLoop goURL examplePlaylistUrl 0 false (fun _ => 0) State.init
        [some ⟨"../hi/seg%201.ts?x=a+b", 5000000000⟩]).events =
      .cacheGet "http://host/hi/seg 1.ts?x=a b" false ::
        .send ⟨"http://host/hi/seg 1.ts?x=a b", d⟩ :: tail :=
  segmentLoop_resolves_relative_uri.1 goURL examplePlaylistUrl 0 false (fun _ => 0) State.init
    ⟨"../hi/seg%201.ts?x=a+b", 5000000000⟩ []
    { Scheme := "http".toList, Host := "host".toList, Path := "/hi/seg 1.ts".toList,
      RawQuery := "x=a+b".toList }
    "http://host/hi/seg 1.ts?x=a b" (by decide!)
    (by show url.URL.Parse examplePlaylistUrl "../hi/seg%201.ts?x=a+b".toList = some _; decide!)
    (by decide!) (by decide)

/-- C9 witness: an open and then a closed playlist, followed by a scripted transport error
that is never reached; two requests are made and `a`, `b`, `c` are sent once each. -/
theorem getPlaylist_zero_target_runs_until_closed_witness :
    ∃ body, getPlaylist goURL (fun _ => 0) "http://host/path/playlist.m3u8" 0 false
        (exampleLivePolls ++ [.transportError]) = ⟨body ++ [.close], .returnedClosed⟩ ∧
      Event.close ∉ body ∧ body.count .request = 2 ∧
      (sent body).map Download.URI =
        ["http://host/path/a.ts", "http://host/path/b.ts", "http://host/path/c.ts"] := by
  have hfirst : NoFatal goURL examplePlaylistUrl
      [some ⟨"a.ts", 5000000000⟩, some ⟨"b.ts", 5000000000⟩] := by
    intro v hv
    simp at hv
    rcases hv with rfl | rfl <;> decide!
  have hsecond : NoFatal goURL examplePlaylistUrl
      [some ⟨"a.ts", 5000000000⟩, some ⟨"b.ts", 5000000000⟩, some ⟨"c.ts", 5000000000⟩] := by
    intro v hv
    simp at hv
    rcases hv with rfl | rfl | rfl <;> decide!
  obtain ⟨body, e, h1, h2, h3, _⟩ := (getPlaylist_zero_target_runs_until_closed goURL
    (fun _ => 0) "http://host/path/playlist.m3u8" false
    (exampleLivePolls ++ [.transportError])).2.1
    examplePlaylistUrl
    [.media ⟨[some ⟨"a.ts", 5000000000⟩, some ⟨"b.ts", 5000000000⟩], false, 5000000000⟩]
    ⟨[some ⟨"a.ts", 5000000000⟩, some ⟨"b.ts", 5000000000⟩, some ⟨"c.ts", 5000000000⟩],
      true, 5000000000⟩
    [.transportError] goURL_parse_example rfl rfl hsecond
    (by
      intro f hf
      simp only [List.mem_singleton] at hf
      subst hf
      exact ⟨_, rfl, rfl, hfirst⟩)
  exact ⟨body, e, h1, by simpa using h2, h3.trans (by decide!)⟩

/-- C10 witness: target 10 s on two polls with 5 s segments; the run ends with the send of
`b` and `close`. -/
theorem getPlaylist_check_only_after_send_witness :
    ∃ pre d, (getPlaylist goURL (fun _ => 0) "http://host/path/playlist.m3u8" 10000000000 false
        exampleLivePolls).events = pre ++ [.send d, .close] ∧
      targetReached 10000000000 d.totalDuration = true :=
  (getPlaylist_check_only_after_send goURL (fun _ => 0) "http://host/path/playlist.m3u8"
    10000000000 false exampleLivePolls).2.2 (by decide!)


end Gohls
